import Mathlib

/-!
Verification of the API endpoint navigator's scanning, normalization and
matching engine.  The definitions below are shallow embeddings of the
TypeScript sources: `EndpointIndex.ts` (key normalization, the rebuild merge
loop, parameter validation), `backendScanner.ts` (attribute-style route
composition and constraint stripping) and the FastAPI router-graph scanner
(entrypoint parsing, bounded import traversal).  Strings are modelled as
Lean strings over their character lists; JavaScript regex replacement is
modelled by explicit character-level scanners that mirror the engine's
leftmost-match, advance-on-failure behaviour.
-/

namespace ApiNav

/-- JavaScript `toLowerCase` restricted to the ASCII range (the only range the
scanned route strings use). -/
def lowerChar (c : Char) : Char :=
  if 'A' ≤ c ∧ c ≤ 'Z' then Char.ofNat (c.toNat + 32) else c

/-- JavaScript `toUpperCase` restricted to the ASCII range. -/
def upperChar (c : Char) : Char :=
  if 'a' ≤ c ∧ c ≤ 'z' then Char.ofNat (c.toNat - 32) else c

/-- Global replacement of the regex `\{[^}]+\}` by `*`, as performed by
`String.prototype.replace`: scan left to right, on a `{` accumulate
characters up to the next `}`; a nonempty group is replaced by `*`, an empty
group `{}` or an unterminated `{` is emitted verbatim.  The accumulator holds
the group content in reverse. -/
def replaceBraceAux : Option (List Char) → List Char → List Char
  | none, [] => []
  | none, c :: rest =>
    if c = '{' then replaceBraceAux (some []) rest
    else c :: replaceBraceAux none rest
  | some acc, [] => '{' :: acc.reverse
  | some acc, c :: rest =>
    if c = '}' then
      if acc = [] then '{' :: '}' :: replaceBraceAux none rest
      else '*' :: replaceBraceAux none rest
    else replaceBraceAux (c :: acc) rest

/-- Global replacement of the regex `\$\{[^}]+\}` by `*`, with the same
JavaScript replacement semantics as `replaceBraceAux`. -/
def replaceDollarAux : Option (List Char) → List Char → List Char
  | none, [] => []
  | none, '$' :: '{' :: rest => replaceDollarAux (some []) rest
  | none, c :: rest => c :: replaceDollarAux none rest
  | some acc, [] => '$' :: '{' :: acc.reverse
  | some acc, c :: rest =>
    if c = '}' then
      if acc = [] then '$' :: '{' :: '}' :: replaceDollarAux none rest
      else '*' :: replaceDollarAux none rest
    else replaceDollarAux (c :: acc) rest

namespace EndpointIndex

/-- `EndpointIndex.normalizeEndpoint` from `src/EndpointIndex.ts`: strip the
query suffix at the first `?`, apply `replace(/\{[^}]+\}/g, '*')`, then
`replace(/\$\{[^}]+\}/g, '*')`, lowercase, and append `:` plus the uppercased
HTTP method. -/
def normalizeEndpoint (endpoint httpMethod : String) : String :=
  let path := endpoint.data.takeWhile (fun c => c ≠ '?')
  let normalizedPath :=
    (replaceDollarAux none (replaceBraceAux none path)).map lowerChar
  String.mk (normalizedPath ++ ':' :: httpMethod.data.map upperChar)

end EndpointIndex

/-- A recorded parameter mismatch (1-based position), from `EndpointIndex.ts`. -/
structure ParamMismatch where
  position : Nat
  frontendParam : String
  backendParam : String
deriving DecidableEq, Repr

/-- The loop body of `EndpointIndex.validateParams`: positions `i` to
`i + n - 1`, where a missing array element reads as the empty string
(`frontendParams[i] || ''`) and an empty name is reported as `(missing)`. -/
def validateParamsGo (frontendParams backendParams : List String) :
    Nat → Nat → List ParamMismatch
  | _, 0 => []
  | i, Nat.succ n =>
    let f := frontendParams.getD i ""
    let b := backendParams.getD i ""
    if f ≠ b then
      { position := i + 1
        frontendParam := if f = "" then "(missing)" else f
        backendParam := if b = "" then "(missing)" else b } ::
        validateParamsGo frontendParams backendParams (i + 1) n
    else validateParamsGo frontendParams backendParams (i + 1) n

/-- `EndpointIndex.validateParams`: compare the two ordered name lists
position by position up to the longer length. -/
def validateParams (frontendParams backendParams : List String) :
    List ParamMismatch :=
  validateParamsGo frontendParams backendParams 0
    (max frontendParams.length backendParams.length)

/-- Source location (uri plus position), abstracting `vscode.Location`. -/
structure Location where
  file : String
  line : Nat
  col : Nat
deriving DecidableEq, Repr

/-- The `EndpointStatus` union type of `EndpointIndex.ts`. -/
inductive EndpointStatus
  | valid
  | invalid
  | unresolved
  | paramMismatch
deriving DecidableEq, Repr

/-- One element of `EndpointEntry.backendDefinitions`. -/
structure BackendDef where
  location : Location
  httpMethod : String
  rawEndpoint : String
deriving DecidableEq, Repr

/-- One element of `EndpointEntry.frontends`. -/
structure FrontendCall where
  location : Location
  params : List String
  rawEndpoint : String
  httpMethod : String
deriving DecidableEq, Repr

/-- The `EndpointEntry` record of `EndpointIndex.ts`; optional TypeScript
fields are modelled with `Option`. -/
structure EndpointEntry where
  endpoint : String
  rawEndpoint : Option String
  backend : Option Location
  backendDefinitions : List BackendDef
  httpMethod : Option String
  backendParams : List String
  frontends : List FrontendCall
  status : EndpointStatus
  paramMismatches : List ParamMismatch
  errorMessage : Option String
deriving DecidableEq, Repr

/-- A backend scanner output descriptor (`BackendEndpoint` in
`backendScanner.ts`). -/
structure BackendEndpoint where
  endpoint : String
  params : List String
  location : Location
  httpMethod : String
  rawEndpoint : String
deriving DecidableEq, Repr

/-- A frontend scanner output descriptor (`FrontendEndpoint`). -/
structure FrontendEndpoint where
  endpoint : String
  params : List String
  location : Location
  httpMethod : String
  rawEndpoint : String
deriving DecidableEq, Repr

/-- The backing store of the index: a JavaScript `Map` keyed by normalized
endpoint key, modelled as an insertion-ordered association list. -/
abbrev IndexMap := List (String × EndpointEntry)

/-- `Map.get`. -/
def lookupEntry : IndexMap → String → Option EndpointEntry
  | [], _ => none
  | (k, e) :: rest, key => if key = k then some e else lookupEntry rest key

/-- `Map.set`: update in place if present, append otherwise (JavaScript maps
keep the original insertion position on update). -/
def setEntry : IndexMap → String → EndpointEntry → IndexMap
  | [], key, v => [(key, v)]
  | (k, e) :: rest, key, v =>
    if key = k then (key, v) :: rest else (k, e) :: setEntry rest key v

/-- The normalized key of a backend descriptor, as computed in `rebuild`. -/
def backendKey (b : BackendEndpoint) : String :=
  EndpointIndex.normalizeEndpoint b.endpoint b.httpMethod

/-- The normalized key of a frontend descriptor, as computed in `rebuild`. -/
def frontendKey (f : FrontendEndpoint) : String :=
  EndpointIndex.normalizeEndpoint f.endpoint f.httpMethod

/-- The duplicate-definition message template of `rebuild`. -/
def backendDuplicateMessage (n : Nat) : String :=
  "Multiple backend definitions found (" ++ toString n ++ " definitions)"

/-- The record pushed onto `backendDefinitions`. -/
def toBackendDef (b : BackendEndpoint) : BackendDef :=
  { location := b.location
    httpMethod := b.httpMethod
    rawEndpoint := b.rawEndpoint }

/-- The entry created by `rebuild` for a first backend definition. -/
def seedEntry (b : BackendEndpoint) : EndpointEntry :=
  { endpoint := b.endpoint
    rawEndpoint := some b.rawEndpoint
    backend := some b.location
    backendDefinitions := [toBackendDef b]
    httpMethod := some b.httpMethod
    backendParams := b.params
    frontends := []
    status := .valid
    paramMismatches := []
    errorMessage := none }

/-- The duplicate-key branch of the backend loop in `rebuild`: mark invalid,
append the definition, and set the duplicate-count message. -/
def mergeDuplicate (e : EndpointEntry) (b : BackendEndpoint) : EndpointEntry :=
  let defs := e.backendDefinitions ++ [toBackendDef b]
  { e with
    status := .invalid
    backendDefinitions := defs
    errorMessage := some (backendDuplicateMessage defs.length) }

/-- One iteration of the backend loop in `rebuild`. -/
def stepBackend (m : IndexMap) (b : BackendEndpoint) : IndexMap :=
  match lookupEntry m (backendKey b) with
  | some e => setEntry m (backendKey b) (mergeDuplicate e b)
  | none => setEntry m (backendKey b) (seedEntry b)

/-- The backend loop of `rebuild`. -/
def indexBackends (bs : List BackendEndpoint) (m : IndexMap) : IndexMap :=
  bs.foldl stepBackend m

/-- The call-site record pushed onto `frontends`. -/
def toFrontendCall (f : FrontendEndpoint) : FrontendCall :=
  { location := f.location
    params := f.params
    rawEndpoint := f.rawEndpoint
    httpMethod := f.httpMethod }

/-- The entry created by `rebuild` when a frontend key has no backend. -/
def unresolvedEntry (f : FrontendEndpoint) : EndpointEntry :=
  { endpoint := f.endpoint
    rawEndpoint := none
    backend := none
    backendDefinitions := []
    httpMethod := some f.httpMethod
    backendParams := []
    frontends := []
    status := .unresolved
    paramMismatches := []
    errorMessage := some "No backend definition found" }

/-- The per-frontend tail of the frontend loop in `rebuild`: append the call
site, then validate parameters when a backend exists and the entry is not
already invalid. -/
def attachFrontend (e : EndpointEntry) (f : FrontendEndpoint) : EndpointEntry :=
  let e1 := { e with frontends := e.frontends ++ [toFrontendCall f] }
  if e1.backend.isSome ∧ e1.status ≠ .invalid then
    let mismatches := validateParams f.params e1.backendParams
    if mismatches ≠ [] then
      { e1 with status := .paramMismatch, paramMismatches := mismatches }
    else e1
  else e1

/-- One iteration of the frontend loop in `rebuild`. -/
def stepFrontend (m : IndexMap) (f : FrontendEndpoint) : IndexMap :=
  let e :=
    match lookupEntry m (frontendKey f) with
    | some e => e
    | none => unresolvedEntry f
  setEntry m (frontendKey f) (attachFrontend e f)

/-- The frontend loop of `rebuild`. -/
def indexFrontends (fs : List FrontendEndpoint) (m : IndexMap) : IndexMap :=
  fs.foldl stepFrontend m

/-- `EndpointIndex.rebuild`, starting from the cleared map, with the scanner
outputs supplied as lists of descriptors. -/
def rebuild (bs : List BackendEndpoint) (fs : List FrontendEndpoint) :
    IndexMap :=
  indexFrontends fs (indexBackends bs [])

/-- The cumulative effect of the backend loop on the entry of a single key:
the first descriptor seeds the entry, later ones merge as duplicates. -/
def mergeRun (x : Option EndpointEntry) :
    List BackendEndpoint → Option EndpointEntry
  | [] => x
  | b :: rest =>
    match x with
    | none => mergeRun (some (seedEntry b)) rest
    | some e => mergeRun (some (mergeDuplicate e b)) rest

/-- The cumulative effect of the frontend loop on the entry of a single key. -/
def frontRun (x : Option EndpointEntry) :
    List FrontendEndpoint → Option EndpointEntry
  | [] => x
  | f :: rest =>
    match x with
    | none => frontRun (some (attachFrontend (unresolvedEntry f) f)) rest
    | some e => frontRun (some (attachFrontend e f)) rest

theorem lookupEntry_setEntry (m : IndexMap) (k : String) (v : EndpointEntry)
    (k' : String) :
    lookupEntry (setEntry m k v) k' =
      if k' = k then some v else lookupEntry m k' := by
  induction m with
  | nil => simp [setEntry, lookupEntry]
  | cons p rest ih =>
    obtain ⟨k0, e0⟩ := p
    by_cases h : k = k0
    · subst h
      by_cases h' : k' = k
      · subst h'
        simp [setEntry, lookupEntry]
      · simp [setEntry, lookupEntry, h']
    · by_cases h' : k' = k0
      · subst h'
        have hkk : ¬k' = k := fun hh => h hh.symm
        simp [setEntry, lookupEntry, h, hkk]
      · simp [setEntry, lookupEntry, h, h', ih]

theorem indexBackends_lookup (bs : List BackendEndpoint) (m : IndexMap)
    (k : String) :
    lookupEntry (indexBackends bs m) k =
      mergeRun (lookupEntry m k) (bs.filter (fun b => backendKey b == k)) := by
  induction bs generalizing m with
  | nil => simp [indexBackends, mergeRun]
  | cons b rest ih =>
    have hstep : indexBackends (b :: rest) m = indexBackends rest (stepBackend m b) := rfl
    rw [hstep, ih]
    by_cases hk : backendKey b = k
    · subst hk
      cases hme : lookupEntry m (backendKey b) with
      | none =>
        simp [stepBackend, hme, lookupEntry_setEntry, mergeRun, List.filter_cons]
      | some e =>
        simp [stepBackend, hme, lookupEntry_setEntry, mergeRun, List.filter_cons]
    · have hkk : ¬k = backendKey b := fun hh => hk hh.symm
      have hne : lookupEntry (stepBackend m b) k = lookupEntry m k := by
        cases hme : lookupEntry m (backendKey b) with
        | none => simp [stepBackend, hme, lookupEntry_setEntry, hkk]
        | some e => simp [stepBackend, hme, lookupEntry_setEntry, hkk]
      rw [hne]
      simp [List.filter_cons, hk]

theorem indexFrontends_lookup (fs : List FrontendEndpoint) (m : IndexMap)
    (k : String) :
    lookupEntry (indexFrontends fs m) k =
      frontRun (lookupEntry m k) (fs.filter (fun f => frontendKey f == k)) := by
  induction fs generalizing m with
  | nil => simp [indexFrontends, frontRun]
  | cons f rest ih =>
    have hstep : indexFrontends (f :: rest) m = indexFrontends rest (stepFrontend m f) := rfl
    rw [hstep, ih]
    by_cases hk : frontendKey f = k
    · subst hk
      cases hme : lookupEntry m (frontendKey f) with
      | none =>
        simp [stepFrontend, hme, lookupEntry_setEntry, frontRun, List.filter_cons]
      | some e =>
        simp [stepFrontend, hme, lookupEntry_setEntry, frontRun, List.filter_cons]
    · have hkk : ¬k = frontendKey f := fun hh => hk hh.symm
      have hne : lookupEntry (stepFrontend m f) k = lookupEntry m k := by
        cases hme : lookupEntry m (frontendKey f) with
        | none => simp [stepFrontend, hme, lookupEntry_setEntry, hkk]
        | some e => simp [stepFrontend, hme, lookupEntry_setEntry, hkk]
      rw [hne]
      simp [List.filter_cons, hk]

theorem attachFrontend_fields (e : EndpointEntry) (f : FrontendEndpoint) :
    (attachFrontend e f).endpoint = e.endpoint ∧
    (attachFrontend e f).rawEndpoint = e.rawEndpoint ∧
    (attachFrontend e f).backend = e.backend ∧
    (attachFrontend e f).backendDefinitions = e.backendDefinitions ∧
    (attachFrontend e f).httpMethod = e.httpMethod ∧
    (attachFrontend e f).backendParams = e.backendParams ∧
    (attachFrontend e f).errorMessage = e.errorMessage ∧
    (attachFrontend e f).frontends = e.frontends ++ [toFrontendCall f] := by
  simp only [attachFrontend]
  split_ifs <;> simp

theorem attachFrontend_status_of_invalid (e : EndpointEntry)
    (f : FrontendEndpoint) (h : e.status = .invalid) :
    (attachFrontend e f).status = .invalid ∧
    (attachFrontend e f).paramMismatches = e.paramMismatches := by
  simp only [attachFrontend]
  split_ifs with h1 h2 <;> simp_all

theorem attachFrontend_of_backend_none (e : EndpointEntry)
    (f : FrontendEndpoint) (h : e.backend = none) :
    (attachFrontend e f).status = e.status ∧
    (attachFrontend e f).paramMismatches = e.paramMismatches := by
  simp only [attachFrontend]
  split_ifs with h1 h2 <;> simp_all

theorem attachFrontend_mismatch_iff (e : EndpointEntry) (f : FrontendEndpoint)
    (h : e.paramMismatches ≠ [] ↔ e.status = .paramMismatch) :
    (attachFrontend e f).paramMismatches ≠ [] ↔
      (attachFrontend e f).status = .paramMismatch := by
  simp only [attachFrontend]
  split_ifs with h1 h2 <;> simp_all

theorem attachFrontend_status_cases (e : EndpointEntry) (f : FrontendEndpoint) :
    (attachFrontend e f).status = e.status ∨
      (attachFrontend e f).status = .paramMismatch := by
  simp only [attachFrontend]
  split_ifs <;> simp

theorem mergeRun_some_fields (l : List BackendEndpoint) (e : EndpointEntry) :
    ∃ e2, mergeRun (some e) l = some e2 ∧
      e2.endpoint = e.endpoint ∧ e2.rawEndpoint = e.rawEndpoint ∧
      e2.backend = e.backend ∧ e2.httpMethod = e.httpMethod ∧
      e2.backendParams = e.backendParams ∧ e2.frontends = e.frontends ∧
      e2.paramMismatches = e.paramMismatches ∧
      e2.backendDefinitions = e.backendDefinitions ++ l.map toBackendDef ∧
      (l = [] → e2 = e) ∧
      (l ≠ [] → e2.status = .invalid ∧
        e2.errorMessage =
          some (backendDuplicateMessage
            (e.backendDefinitions.length + l.length))) := by
  induction l generalizing e with
  | nil =>
    refine ⟨e, rfl, rfl, rfl, rfl, rfl, rfl, rfl, rfl, by simp, fun _ => rfl, ?_⟩
    intro h
    exact absurd rfl h
  | cons b rest ih =>
    obtain ⟨e2, hrun, h1, h2, h3, h4, h5, h6, h7, hdefs, hnil, hcons⟩ :=
      ih (mergeDuplicate e b)
    have hm : mergeRun (some e) (b :: rest) =
        mergeRun (some (mergeDuplicate e b)) rest := rfl
    have hlen : (mergeDuplicate e b).backendDefinitions.length =
        e.backendDefinitions.length + 1 := by
      simp [mergeDuplicate]
    refine ⟨e2, by rw [hm, hrun], ?_, ?_, ?_, ?_, ?_, ?_, ?_, ?_, ?_, ?_⟩
    · rw [h1]; rfl
    · rw [h2]; rfl
    · rw [h3]; rfl
    · rw [h4]; rfl
    · rw [h5]; rfl
    · rw [h6]; rfl
    · rw [h7]; rfl
    · rw [hdefs]
      show (e.backendDefinitions ++ [toBackendDef b]) ++ rest.map toBackendDef = _
      simp
    · intro h
      simp at h
    · intro _
      rcases eq_or_ne rest [] with hr | hr
      · subst hr
        have he2 : e2 = mergeDuplicate e b := hnil rfl
        subst he2
        refine ⟨rfl, ?_⟩
        show some (backendDuplicateMessage
          (e.backendDefinitions ++ [toBackendDef b]).length) = _
        have : (e.backendDefinitions ++ [toBackendDef b]).length =
            e.backendDefinitions.length + 1 := by simp
        rw [this]
        rfl
      · obtain ⟨ha, hb2⟩ := hcons hr
        refine ⟨ha, ?_⟩
        rw [hb2, hlen]
        have harg : e.backendDefinitions.length + 1 + rest.length =
            e.backendDefinitions.length + (b :: rest).length := by
          simp only [List.length_cons]
          omega
        rw [harg]

/-- The seed of the backend loop: the first descriptor with a key yields a
`valid` entry carrying its data; any further descriptor makes it `invalid`. -/
theorem mergeRun_none_char (l : List BackendEndpoint) (hl : l ≠ []) :
    ∃ b0 rest e2, l = b0 :: rest ∧ mergeRun none l = some e2 ∧
      e2.endpoint = b0.endpoint ∧ e2.rawEndpoint = some b0.rawEndpoint ∧
      e2.backend = some b0.location ∧ e2.httpMethod = some b0.httpMethod ∧
      e2.backendParams = b0.params ∧ e2.frontends = [] ∧
      e2.paramMismatches = [] ∧
      e2.backendDefinitions = (b0 :: rest).map toBackendDef ∧
      (rest = [] → e2.status = .valid ∧ e2.errorMessage = none) ∧
      (rest ≠ [] → e2.status = .invalid ∧
        e2.errorMessage = some (backendDuplicateMessage (1 + rest.length))) := by
  rcases l with _ | ⟨b0, rest⟩
  · exact absurd rfl hl
  obtain ⟨e2, hrun, h1, h2, h3, h4, h5, h6, h7, hdefs, hnil, hcons⟩ :=
    mergeRun_some_fields rest (seedEntry b0)
  have hm : mergeRun none (b0 :: rest) = mergeRun (some (seedEntry b0)) rest := rfl
  refine ⟨b0, rest, e2, rfl, by rw [hm, hrun], ?_, ?_, ?_, ?_, ?_, ?_, ?_, ?_, ?_, ?_⟩
  · rw [h1]; rfl
  · rw [h2]; rfl
  · rw [h3]; rfl
  · rw [h4]; rfl
  · rw [h5]; rfl
  · rw [h6]; rfl
  · rw [h7]; rfl
  · rw [hdefs]
    show [toBackendDef b0] ++ rest.map toBackendDef = _
    simp
  · intro hr
    subst hr
    have he2 : e2 = seedEntry b0 := hnil rfl
    subst he2
    exact ⟨rfl, rfl⟩
  · intro hr
    obtain ⟨ha, hb2⟩ := hcons hr
    refine ⟨ha, ?_⟩
    rw [hb2]
    show some (backendDuplicateMessage
      ((seedEntry b0).backendDefinitions.length + rest.length)) = _
    have : (seedEntry b0).backendDefinitions.length = 1 := rfl
    rw [this]

theorem frontRun_some_fields (l : List FrontendEndpoint) (e : EndpointEntry) :
    ∃ e2, frontRun (some e) l = some e2 ∧
      e2.endpoint = e.endpoint ∧ e2.rawEndpoint = e.rawEndpoint ∧
      e2.backend = e.backend ∧ e2.backendDefinitions = e.backendDefinitions ∧
      e2.httpMethod = e.httpMethod ∧ e2.backendParams = e.backendParams ∧
      e2.errorMessage = e.errorMessage ∧
      e2.frontends = e.frontends ++ l.map toFrontendCall := by
  induction l generalizing e with
  | nil => exact ⟨e, rfl, rfl, rfl, rfl, rfl, rfl, rfl, rfl, by simp⟩
  | cons f rest ih =>
    obtain ⟨e2, hrun, h1, h2, h3, h4, h5, h6, h7, h8⟩ := ih (attachFrontend e f)
    obtain ⟨a1, a2, a3, a4, a5, a6, a7, a8⟩ := attachFrontend_fields e f
    exact ⟨e2, hrun, by rw [h1, a1], by rw [h2, a2], by rw [h3, a3],
      by rw [h4, a4], by rw [h5, a5], by rw [h6, a6], by rw [h7, a7],
      by rw [h8, a8]; simp⟩

theorem frontRun_status_invalid (l : List FrontendEndpoint) (e : EndpointEntry)
    (h : e.status = .invalid) :
    ∃ e2, frontRun (some e) l = some e2 ∧ e2.status = .invalid ∧
      e2.paramMismatches = e.paramMismatches := by
  induction l generalizing e with
  | nil => exact ⟨e, rfl, h, rfl⟩
  | cons f rest ih =>
    obtain ⟨hs, hp⟩ := attachFrontend_status_of_invalid e f h
    obtain ⟨e2, hrun, h1, h2⟩ := ih (attachFrontend e f) hs
    exact ⟨e2, hrun, h1, by rw [h2, hp]⟩

theorem frontRun_backend_none (l : List FrontendEndpoint) (e : EndpointEntry)
    (h : e.backend = none) :
    ∃ e2, frontRun (some e) l = some e2 ∧ e2.status = e.status ∧
      e2.paramMismatches = e.paramMismatches := by
  induction l generalizing e with
  | nil => exact ⟨e, rfl, rfl, rfl⟩
  | cons f rest ih =>
    obtain ⟨hs, hp⟩ := attachFrontend_of_backend_none e f h
    have hb : (attachFrontend e f).backend = none := by
      rw [(attachFrontend_fields e f).2.2.1, h]
    obtain ⟨e2, hrun, h1, h2⟩ := ih (attachFrontend e f) hb
    exact ⟨e2, hrun, by rw [h1, hs], by rw [h2, hp]⟩

/-- A frontend-created (unresolved) chain: keeps its unresolved shape and
accumulates exactly the call sites. -/
theorem frontRun_none_char (l : List FrontendEndpoint) (hl : l ≠ []) :
    ∃ f0 e2, l.head? = some f0 ∧ frontRun none l = some e2 ∧
      e2.endpoint = f0.endpoint ∧ e2.status = .unresolved ∧
      e2.backend = none ∧ e2.backendDefinitions = [] ∧
      e2.errorMessage = some "No backend definition found" ∧
      e2.paramMismatches = [] ∧
      e2.frontends = l.map toFrontendCall := by
  rcases l with _ | ⟨f0, rest⟩
  · exact absurd rfl hl
  obtain ⟨a1, a2, a3, a4, a5, a6, a7, a8⟩ :=
    attachFrontend_fields (unresolvedEntry f0) f0
  have hb : (attachFrontend (unresolvedEntry f0) f0).backend = none := by
    rw [a3]; rfl
  obtain ⟨hs, hp⟩ := attachFrontend_of_backend_none (unresolvedEntry f0) f0 rfl
  obtain ⟨e2, hrun, g1, g2, g3, g4, g5, g6, g7, g8⟩ :=
    frontRun_some_fields rest (attachFrontend (unresolvedEntry f0) f0)
  obtain ⟨e3, hrun2, s1, s2⟩ :=
    frontRun_backend_none rest (attachFrontend (unresolvedEntry f0) f0) hb
  have he : e2 = e3 := by
    rw [hrun] at hrun2
    exact Option.some.inj hrun2
  subst he
  have hm : frontRun none (f0 :: rest) =
      frontRun (some (attachFrontend (unresolvedEntry f0) f0)) rest := rfl
  refine ⟨f0, e2, rfl, by rw [hm, hrun], ?_, ?_, ?_, ?_, ?_, ?_, ?_⟩
  · rw [g1, a1]; rfl
  · rw [s1, hs]; rfl
  · rw [g3, hb]
  · rw [g4, a4]; rfl
  · rw [g7, a7]; rfl
  · rw [s2, hp]; rfl
  · rw [g8, a8]
    show ((unresolvedEntry f0).frontends ++ [toFrontendCall f0]) ++
      rest.map toFrontendCall = _
    show ([] ++ [toFrontendCall f0]) ++ rest.map toFrontendCall = _
    simp

theorem frontRun_mismatch_iff (l : List FrontendEndpoint)
    (x : Option EndpointEntry)
    (hx : ∀ e, x = some e → (e.paramMismatches ≠ [] ↔ e.status = .paramMismatch)) :
    ∀ e2, frontRun x l = some e2 →
      (e2.paramMismatches ≠ [] ↔ e2.status = .paramMismatch) := by
  induction l generalizing x with
  | nil =>
    intro e2 h2
    exact hx e2 h2
  | cons f rest ih =>
    intro e2 h2
    cases x with
    | none =>
      have hseed : (unresolvedEntry f).paramMismatches ≠ [] ↔
          (unresolvedEntry f).status = .paramMismatch := by
        simp [unresolvedEntry]
      exact ih (some (attachFrontend (unresolvedEntry f) f))
        (fun e he => by
          cases he
          exact attachFrontend_mismatch_iff _ f hseed) e2 h2
    | some e =>
      exact ih (some (attachFrontend e f))
        (fun e3 he => by
          cases he
          exact attachFrontend_mismatch_iff _ f (hx e rfl)) e2 h2

theorem backendPhase_entry_shape (bs : List BackendEndpoint) (k : String)
    (e0 : EndpointEntry) (h : lookupEntry (indexBackends bs []) k = some e0) :
    e0.paramMismatches = [] ∧ (e0.status = .valid ∨ e0.status = .invalid) := by
  rw [indexBackends_lookup bs [] k] at h
  have hnone : lookupEntry ([] : IndexMap) k = none := rfl
  rw [hnone] at h
  rcases eq_or_ne (bs.filter (fun b => backendKey b == k)) [] with hbf | hbf
  · rw [hbf] at h
    exact absurd h (by simp [mergeRun])
  · obtain ⟨b0, rest, e2, hcons, hrun, _, _, _, _, _, _, hpm, _, hnil2, hcons2⟩ :=
      mergeRun_none_char _ hbf
    rw [hrun] at h
    have he : e2 = e0 := Option.some.inj h
    subst he
    refine ⟨hpm, ?_⟩
    rcases eq_or_ne rest [] with hr | hr
    · exact Or.inl (hnil2 hr).1
    · exact Or.inr (hcons2 hr).1

/-- C1: if exactly two backend descriptors of a rebuild share a normalized
key, the entry at that key ends the rebuild `invalid`, retains both
definitions (in scan order, length two), and carries the duplicate-count
message; neither definition is discarded. -/
theorem backend_duplicate_key_invalid (bs : List BackendEndpoint)
    (fs : List FrontendEndpoint) (k : String) (b1 b2 : BackendEndpoint)
    (hfilter : bs.filter (fun b => backendKey b == k) = [b1, b2]) :
    ∃ e, lookupEntry (rebuild bs fs) k = some e ∧
      e.status = .invalid ∧
      e.backendDefinitions = [toBackendDef b1, toBackendDef b2] ∧
      e.errorMessage =
        some "Multiple backend definitions found (2 definitions)" := by
  have hb := indexBackends_lookup bs [] k
  rw [hfilter] at hb
  have hnone : lookupEntry ([] : IndexMap) k = none := rfl
  rw [hnone] at hb
  have hval : mergeRun none [b1, b2] =
      some (mergeDuplicate (seedEntry b1) b2) := rfl
  rw [hval] at hb
  have hinv : (mergeDuplicate (seedEntry b1) b2).status = .invalid := rfl
  obtain ⟨e2, hrun, hst, _⟩ :=
    frontRun_status_invalid (fs.filter fun g => frontendKey g == k)
      (mergeDuplicate (seedEntry b1) b2) hinv
  obtain ⟨e3, hrun2, _, _, _, hdefs, _, _, herr, _⟩ :=
    frontRun_some_fields (fs.filter fun g => frontendKey g == k)
      (mergeDuplicate (seedEntry b1) b2)
  have he23 : e2 = e3 := by
    rw [hrun] at hrun2
    exact Option.some.inj hrun2
  subst he23
  have hfinal : lookupEntry (rebuild bs fs) k = some e2 := by
    have h0 := indexFrontends_lookup fs (indexBackends bs []) k
    rw [hb, hrun] at h0
    exact h0
  refine ⟨e2, hfinal, hst, ?_, ?_⟩
  · rw [hdefs]; rfl
  · rw [herr]
    show some (backendDuplicateMessage
      ((seedEntry b1).backendDefinitions ++ [toBackendDef b2]).length) = _
    have hl : ((seedEntry b1).backendDefinitions ++ [toBackendDef b2]).length = 2 := rfl
    rw [hl]
    decide

/-- C3: a frontend descriptor whose normalized key matches no backend
descriptor yields an `unresolved` entry with no backend location, an empty
definitions list and the not-found message, and the call site is still
appended to the entry. -/
theorem frontend_unresolved_entry (bs : List BackendEndpoint)
    (fs : List FrontendEndpoint) (f : FrontendEndpoint) (hf : f ∈ fs)
    (hnb : ∀ b ∈ bs, backendKey b ≠ frontendKey f) :
    ∃ e, lookupEntry (rebuild bs fs) (frontendKey f) = some e ∧
      e.status = .unresolved ∧ e.backend = none ∧
      e.backendDefinitions = [] ∧
      e.errorMessage = some "No backend definition found" ∧
      toFrontendCall f ∈ e.frontends := by
  have hb := indexBackends_lookup bs [] (frontendKey f)
  have hfilterb : bs.filter (fun b => backendKey b == frontendKey f) = [] := by
    rw [List.filter_eq_nil_iff]
    intro b hbmem
    simpa using hnb b hbmem
  rw [hfilterb] at hb
  have hnone : lookupEntry ([] : IndexMap) (frontendKey f) = none := rfl
  rw [hnone] at hb
  have hmr : mergeRun none ([] : List BackendEndpoint) = none := rfl
  rw [hmr] at hb
  have hmem : f ∈ fs.filter (fun g => frontendKey g == frontendKey f) := by
    simp [List.mem_filter, hf]
  have hne : fs.filter (fun g => frontendKey g == frontendKey f) ≠ [] := by
    intro h0
    rw [h0] at hmem
    simp at hmem
  obtain ⟨f0, e2, _, hrun, _, h2, h3, h4, h5, _, h7⟩ := frontRun_none_char _ hne
  have hfinal : lookupEntry (rebuild bs fs) (frontendKey f) = some e2 := by
    have h0 := indexFrontends_lookup fs (indexBackends bs []) (frontendKey f)
    rw [hb, hrun] at h0
    exact h0
  refine ⟨e2, hfinal, h2, h3, h4, h5, ?_⟩
  rw [h7]
  exact List.mem_map_of_mem toFrontendCall hmem

/-- C5: at the end of every rebuild, an entry has a non-empty
`paramMismatches` exactly when its status is `param-mismatch`, and any
`param-mismatch` entry was a `valid` entry at the end of the backend phase —
so `invalid` and `unresolved` entries are never reclassified. -/
theorem paramMismatch_status_iff (bs : List BackendEndpoint)
    (fs : List FrontendEndpoint) (k : String) (e : EndpointEntry)
    (h : lookupEntry (rebuild bs fs) k = some e) :
    (e.paramMismatches ≠ [] ↔ e.status = .paramMismatch) ∧
    (e.status = .paramMismatch →
      ∃ e0, lookupEntry (indexBackends bs []) k = some e0 ∧
        e0.status = .valid) := by
  have hf2 : lookupEntry (rebuild bs fs) k =
      frontRun (lookupEntry (indexBackends bs []) k)
        (fs.filter (fun g => frontendKey g == k)) :=
    indexFrontends_lookup fs (indexBackends bs []) k
  rw [hf2] at h
  have hiff : e.paramMismatches ≠ [] ↔ e.status = .paramMismatch := by
    apply frontRun_mismatch_iff _ _ _ e h
    intro e0 he0
    obtain ⟨hpm, hst⟩ := backendPhase_entry_shape bs k e0 he0
    rw [hpm]
    rcases hst with hv | hv <;> simp [hv]
  refine ⟨hiff, ?_⟩
  intro hpm
  cases hXc : lookupEntry (indexBackends bs []) k with
  | none =>
    rw [hXc] at h
    rcases eq_or_ne (fs.filter (fun g => frontendKey g == k)) [] with hL0 | hL0
    · rw [hL0] at h
      exact absurd h (by simp [frontRun])
    · obtain ⟨f0, e2, _, hrun, _, hst, _⟩ := frontRun_none_char _ hL0
      rw [hrun] at h
      have he : e2 = e := Option.some.inj h
      subst he
      rw [hst] at hpm
      exact absurd hpm (by simp)
  | some e0 =>
    rw [hXc] at h
    obtain ⟨hpm0, hst0⟩ := backendPhase_entry_shape bs k e0 hXc
    rcases hst0 with hv | hv
    · exact ⟨e0, rfl, hv⟩
    · obtain ⟨e2, hrun, hst, _⟩ :=
        frontRun_status_invalid (fs.filter (fun g => frontendKey g == k)) e0 hv
      rw [hrun] at h
      have he : e2 = e := Option.some.inj h
      subst he
      rw [hst] at hpm
      exact absurd hpm (by simp)

/-- C10: merging a duplicate backend descriptor into an existing entry
changes only `status`, `backendDefinitions` and `errorMessage`; all other
fields keep the values derived from the first backend descriptor with that
key, which the backend phase therefore always exposes for navigation and
parameter checking. -/
theorem duplicate_merge_frame :
    (∀ (m : IndexMap) (e : EndpointEntry) (b : BackendEndpoint),
      lookupEntry m (backendKey b) = some e →
      ∃ e2, lookupEntry (stepBackend m b) (backendKey b) = some e2 ∧
        e2.endpoint = e.endpoint ∧ e2.rawEndpoint = e.rawEndpoint ∧
        e2.backend = e.backend ∧ e2.httpMethod = e.httpMethod ∧
        e2.backendParams = e.backendParams ∧ e2.frontends = e.frontends ∧
        e2.paramMismatches = e.paramMismatches ∧
        e2.status = .invalid ∧
        e2.backendDefinitions = e.backendDefinitions ++ [toBackendDef b] ∧
        e2.errorMessage = some (backendDuplicateMessage
          (e.backendDefinitions.length + 1))) ∧
    (∀ (bs : List BackendEndpoint) (k : String) (b1 : BackendEndpoint)
      (rest : List BackendEndpoint),
      bs.filter (fun b => backendKey b == k) = b1 :: rest →
      ∃ e, lookupEntry (indexBackends bs []) k = some e ∧
        e.endpoint = b1.endpoint ∧ e.rawEndpoint = some b1.rawEndpoint ∧
        e.backend = some b1.location ∧ e.httpMethod = some b1.httpMethod ∧
        e.backendParams = b1.params) := by
  constructor
  · intro m e b hme
    refine ⟨mergeDuplicate e b, ?_, rfl, rfl, rfl, rfl, rfl, rfl, rfl, rfl, rfl, ?_⟩
    · simp [stepBackend, hme, lookupEntry_setEntry]
    · show some (backendDuplicateMessage
        (e.backendDefinitions ++ [toBackendDef b]).length) = _
      have hl : (e.backendDefinitions ++ [toBackendDef b]).length =
          e.backendDefinitions.length + 1 := by simp
      rw [hl]
  · intro bs k b1 rest hfilter
    have hb := indexBackends_lookup bs [] k
    have hnone : lookupEntry ([] : IndexMap) k = none := rfl
    rw [hnone, hfilter] at hb
    obtain ⟨b0, rest2, e2, hcons, hrun, h1, h2, h3, h4, h5, _, _, _, _, _⟩ :=
      mergeRun_none_char (b1 :: rest) (by simp)
    have hb0 : b0 = b1 := (List.cons.injEq _ _ _ _ ▸ hcons).1.symm
    subst hb0
    rw [hrun] at hb
    exact ⟨e2, hb, h1, h2, h3, h4, h5⟩

/-- C2: evaluating the key normalizer of the index on a template-literal
parameter.  The code replaces `\{[^}]+\}` first, which consumes the braces
of `${id}` and leaves the dollar sign, so the second replacement pass never
fires: `${id}` becomes `$*`, not the bare wildcard `*` that the comment
above the code and the specification describe. -/
theorem normalizeEndpoint_dollar_param :
    EndpointIndex.normalizeEndpoint "/api/Users/${id}" "get" =
        "/api/users/$*:GET" ∧
      EndpointIndex.normalizeEndpoint "/api/Users/${id}" "get" ≠
        "/api/users/*:GET" := by
  constructor
  · decide
  · decide

/-- The parameter comparison as the specification words it: positions up to
the longer list's length, one mismatch per position where the (optional)
names differ, an absent side reported as the literal `(missing)`. -/
def specParamMismatches (frontendParams backendParams : List String) :
    List ParamMismatch :=
  (List.range (max frontendParams.length backendParams.length)).filterMap
    (fun i =>
      if frontendParams[i]? ≠ backendParams[i]? then
        some { position := i + 1
               frontendParam := frontendParams[i]?.getD "(missing)"
               backendParam := backendParams[i]?.getD "(missing)" }
      else none)

theorem validateParamsGo_eq_filterMap (fp bp : List String) (n i : Nat) :
    validateParamsGo fp bp i n = (List.range' i n).filterMap
      (fun j => if fp.getD j "" ≠ bp.getD j "" then
        some { position := j + 1
               frontendParam :=
                 if fp.getD j "" = "" then "(missing)" else fp.getD j ""
               backendParam :=
                 if bp.getD j "" = "" then "(missing)" else bp.getD j "" }
        else none) := by
  induction n generalizing i with
  | zero => rfl
  | succ n ih =>
    by_cases hj : fp.getD i "" ≠ bp.getD i ""
    · have hstep : validateParamsGo fp bp i (n + 1) =
          { position := i + 1
            frontendParam :=
              if fp.getD i "" = "" then "(missing)" else fp.getD i ""
            backendParam :=
              if bp.getD i "" = "" then "(missing)" else bp.getD i "" } ::
            validateParamsGo fp bp (i + 1) n := by
        show (if fp.getD i "" ≠ bp.getD i "" then _ else _) = _
        rw [if_pos hj]
      rw [hstep, ih, List.range'_succ, List.filterMap_cons, if_pos hj]
    · have hstep : validateParamsGo fp bp i (n + 1) =
          validateParamsGo fp bp (i + 1) n := by
        show (if fp.getD i "" ≠ bp.getD i "" then _ else _) = _
        rw [if_neg hj]
      rw [hstep, ih, List.range'_succ, List.filterMap_cons, if_neg hj]

/-- C4: `validateParams` compares the two ordered name lists position by
position up to the longer length, emits one 1-based mismatch per differing
position, reports an absent side as `(missing)`, and on `[id]` vs `[userId]`
yields exactly one mismatch at position 1. -/
theorem validateParams_positionwise (fp bp : List String)
    (hf : ∀ s ∈ fp, s ≠ "") (hb : ∀ s ∈ bp, s ≠ "") :
    validateParams fp bp = specParamMismatches fp bp ∧
    validateParams ["id"] ["userId"] =
      [{ position := 1, frontendParam := "id", backendParam := "userId" }] := by
  refine ⟨?_, by decide⟩
  have hfun : ∀ j,
      (if fp.getD j "" ≠ bp.getD j "" then
        some { position := j + 1
               frontendParam :=
                 if fp.getD j "" = "" then "(missing)" else fp.getD j ""
               backendParam :=
                 if bp.getD j "" = "" then "(missing)" else bp.getD j "" }
        else none : Option ParamMismatch) =
      (if fp[j]? ≠ bp[j]? then
        some { position := j + 1
               frontendParam := fp[j]?.getD "(missing)"
               backendParam := bp[j]?.getD "(missing)" }
      else none) := by
    intro j
    have hgf : fp.getD j "" = fp[j]?.getD "" := List.getD_eq_getElem?_getD fp j ""
    have hgb : bp.getD j "" = bp[j]?.getD "" := List.getD_eq_getElem?_getD bp j ""
    cases hja : fp[j]? with
    | none =>
      cases hjb : bp[j]? with
      | none => simp [hgf, hgb, hja, hjb]
      | some b =>
        have hbne : b ≠ "" := hb b (List.getElem?_mem hjb)
        simp [hgf, hgb, hja, hjb, hbne, Ne.symm hbne]
    | some a =>
      have hane : a ≠ "" := hf a (List.getElem?_mem hja)
      cases hjb : bp[j]? with
      | none => simp [hgf, hgb, hja, hjb, hane]
      | some b =>
        have hbne : b ≠ "" := hb b (List.getElem?_mem hjb)
        by_cases hab : a = b
        · subst hab
          simp [hgf, hgb, hja, hjb]
        · simp [hgf, hgb, hja, hjb, hane, hbne, hab]
  rw [validateParams, validateParamsGo_eq_filterMap, specParamMismatches,
    List.range_eq_range']
  exact List.filterMap_congr (fun j _ => hfun j)

/-- Concrete backend descriptor used by the witnesses. -/
def wB1 : BackendEndpoint :=
  { endpoint := "/api/users/{id}"
    params := ["id"]
    location := { file := "UsersController.cs", line := 12, col := 0 }
    httpMethod := "GET"
    rawEndpoint := "/api/users/{id:guid}" }

/-- A second backend descriptor normalizing to the same key as `wB1`. -/
def wB2 : BackendEndpoint :=
  { endpoint := "/api/Users/{userId}"
    params := ["userId"]
    location := { file := "LegacyUsersController.cs", line := 30, col := 0 }
    httpMethod := "get"
    rawEndpoint := "/api/Users/{userId}" }

/-- Concrete frontend descriptor with a key no backend defines. -/
def wF1 : FrontendEndpoint :=
  { endpoint := "/api/things/{id}"
    params := ["id"]
    location := { file := "client.ts", line := 3, col := 10 }
    httpMethod := "GET"
    rawEndpoint := "/api/things/${id}" }

theorem backend_duplicate_key_invalid_witness :
    List.filter (fun b => backendKey b == "/api/users/*:GET") [wB1, wB2] =
        [wB1, wB2] ∧
      ∃ e, lookupEntry (rebuild [wB1, wB2] []) "/api/users/*:GET" = some e ∧
        e.status = .invalid ∧
        e.backendDefinitions = [toBackendDef wB1, toBackendDef wB2] ∧
        e.errorMessage =
          some "Multiple backend definitions found (2 definitions)" :=
  ⟨by decide, backend_duplicate_key_invalid [wB1, wB2] [] "/api/users/*:GET"
    wB1 wB2 (by decide)⟩

theorem frontend_unresolved_entry_witness :
    ∃ e, lookupEntry (rebuild [wB1] [wF1]) (frontendKey wF1) = some e ∧
      e.status = .unresolved ∧ e.backend = none ∧
      e.backendDefinitions = [] ∧
      e.errorMessage = some "No backend definition found" ∧
      toFrontendCall wF1 ∈ e.frontends :=
  frontend_unresolved_entry [wB1] [wF1] wF1 (by decide) (by decide)

theorem paramMismatch_status_iff_witness :
    ((attachFrontend (unresolvedEntry wF1) wF1).paramMismatches ≠ [] ↔
      (attachFrontend (unresolvedEntry wF1) wF1).status = .paramMismatch) ∧
    ((attachFrontend (unresolvedEntry wF1) wF1).status = .paramMismatch →
      ∃ e0, lookupEntry (indexBackends [] []) (frontendKey wF1) = some e0 ∧
        e0.status = .valid) :=
  paramMismatch_status_iff [] [wF1] (frontendKey wF1)
    (attachFrontend (unresolvedEntry wF1) wF1) (by decide)

theorem duplicate_merge_frame_witness :
    ∃ e, lookupEntry (indexBackends [wB1, wB2] []) "/api/users/*:GET" = some e ∧
      e.endpoint = wB1.endpoint ∧ e.rawEndpoint = some wB1.rawEndpoint ∧
      e.backend = some wB1.location ∧ e.httpMethod = some wB1.httpMethod ∧
      e.backendParams = wB1.params :=
  duplicate_merge_frame.2 [wB1, wB2] "/api/users/*:GET" wB1 [wB2] (by decide)

theorem validateParams_positionwise_witness :
    validateParams ["id"] ["userId"] = specParamMismatches ["id"] ["userId"] ∧
    validateParams ["id"] ["userId"] =
      [{ position := 1, frontendParam := "id", backendParam := "userId" }] :=
  validateParams_positionwise ["id"] ["userId"] (by decide) (by decide)

/-- The `FastApiEntrypoint` record of `scanner/config.ts`. -/
structure FastApiEntrypoint where
  filePath : String
  appVar : String
deriving DecidableEq, Repr

/-- JavaScript whitespace for `trim` (the characters the configs can hold). -/
def isWSChar (c : Char) : Bool :=
  c == ' ' || c == '\t' || c == '\n' || c == '\r'

/-- `String.prototype.trim`. -/
def jsTrim (l : List Char) : List Char :=
  ((l.dropWhile isWSChar).reverse.dropWhile isWSChar).reverse

/-- `parseFastapiEntrypoint` from `scanner/config.ts`: reject an empty or
colon-free string, split at the last colon, trim both parts, and require a
non-empty `.py` file path and a non-empty variable name. -/
def parseFastapiEntrypoint (entrypoint : String) : Option FastApiEntrypoint :=
  if entrypoint = "" ∨ ¬entrypoint.data.contains ':' then none
  else
    let r := entrypoint.data.reverse
    let appVarPart := jsTrim ((r.takeWhile (fun c => c != ':')).reverse)
    let filePathPart := jsTrim (((r.dropWhile (fun c => c != ':')).tail).reverse)
    if filePathPart = [] ∨ appVarPart = [] ∨
        ¬List.isSuffixOf ".py".data filePathPart then none
    else some { filePath := String.mk filePathPart, appVar := String.mk appVarPart }

/-- TypeScript falsiness of an optional string (`undefined` or `''`). -/
def isFalsy : Option String → Bool
  | none => true
  | some s => s == ""

/-- `validateBackendConfig` from `scanner/config.ts`. -/
def validateBackendConfig (backendKind : Option String)
    (fastapiEntrypoint : Option String) : Option String :=
  if isFalsy backendKind then
    some "Backend kind not configured. Please set apiNavigator.backendKind to \"dotnet\" or \"fastapi\"."
  else
    let bk := backendKind.getD ""
    if bk ≠ "dotnet" ∧ bk ≠ "fastapi" then
      some ("Invalid backend kind: \"" ++ bk ++ "\". Must be \"dotnet\" or \"fastapi\".")
    else if bk = "fastapi" then
      if isFalsy fastapiEntrypoint then
        some "FastAPI entrypoint not configured. Please set apiNavigator.fastapiEntrypoint (e.g., \"app/main.py:app\")."
      else
        match parseFastapiEntrypoint (fastapiEntrypoint.getD "") with
        | none =>
          some ("Invalid FastAPI entrypoint format: \"" ++
            fastapiEntrypoint.getD "" ++
            "\". Expected format: \"path/to/file.py:appVar\".")
        | some _ => none
    else none

/-- `refreshIndex` from `extension.ts`, restricted to its decision logic: on
a validation error it shows one warning and returns without rebuilding; on
success it rebuilds the index from the scan results. -/
def refreshIndexModel (backendKind : Option String)
    (fastapiEntrypoint : Option String) (prev : IndexMap)
    (bs : List BackendEndpoint) (fs : List FrontendEndpoint) :
    List String × IndexMap :=
  match validateBackendConfig backendKind fastapiEntrypoint with
  | some err => (["API Navigator: " ++ err], prev)
  | none => ([], rebuild bs fs)

/-- C9: a missing or invalid backend kind, or — with the FastAPI kind — a
missing or malformed entrypoint, fails fast: validation yields a message,
`refreshIndex` emits exactly that one warning, and the previous index is
left untouched (no partial rebuild happens). -/
theorem misconfiguration_fails_fast (backendKind fastapiEntrypoint : Option String)
    (prev : IndexMap) (bs : List BackendEndpoint) (fs : List FrontendEndpoint)
    (hbad : isFalsy backendKind = true ∨
      (∀ s, backendKind = some s → s ≠ "dotnet" ∧ s ≠ "fastapi") ∨
      (backendKind = some "fastapi" ∧
        (isFalsy fastapiEntrypoint = true ∨
          parseFastapiEntrypoint (fastapiEntrypoint.getD "") = none))) :
    ∃ msg, validateBackendConfig backendKind fastapiEntrypoint = some msg ∧
      refreshIndexModel backendKind fastapiEntrypoint prev bs fs =
        (["API Navigator: " ++ msg], prev) := by
  have hne : (validateBackendConfig backendKind fastapiEntrypoint).isSome = true := by
    rcases hbad with hb | hb | hb
    · simp [validateBackendConfig, hb]
    · cases hbkc : backendKind with
      | none => simp [validateBackendConfig, isFalsy]
      | some s =>
        by_cases hsf : s = ""
        · subst hsf
          simp [validateBackendConfig, isFalsy, hbkc]
        · obtain ⟨hd, hf⟩ := hb s hbkc
          simp [validateBackendConfig, isFalsy, hbkc, hsf, hd, hf]
    · obtain ⟨hbk, hb2⟩ := hb
      have h1 : isFalsy (some "fastapi") = false := by decide
      by_cases hef : isFalsy fastapiEntrypoint = true
      · simp [validateBackendConfig, hbk, h1, hef]
      · rcases hb2 with hb2 | hb2
        · exact absurd hb2 hef
        · have hef2 : isFalsy fastapiEntrypoint = false := by
            simpa using hef
          simp [validateBackendConfig, hbk, h1, hef2, hb2]
  obtain ⟨msg, hv⟩ := Option.isSome_iff_exists.mp hne
  exact ⟨msg, hv, by simp [refreshIndexModel, hv]⟩

theorem misconfiguration_fails_fast_witness :
    ∃ msg, validateBackendConfig none (some "app/main.py:app") = some msg ∧
      refreshIndexModel none (some "app/main.py:app") [] [] [] =
        (["API Navigator: " ++ msg], []) :=
  misconfiguration_fails_fast none (some "app/main.py:app") [] [] []
    (Or.inl (by decide))

/-- Case-insensitive match of the literal pattern `p0 :: ps` against a
prefix of the input; returns the remainder after the match. -/
def matchesCI : List Char → List Char → Option (List Char)
  | [], rest => some rest
  | _ :: _, [] => none
  | p :: ps, c :: cs => if lowerChar c = lowerChar p then matchesCI ps cs else none

/-- Fueled worker for a global case-insensitive literal replacement
(`replace(/pat/gi, repl)`): at each position try the pattern; on a match
emit the replacement and continue after it, otherwise advance one
character.  The fuel is the input length, which always suffices. -/
def replaceLitCIAux (p0 : Char) (ps repl : List Char) :
    Nat → List Char → List Char
  | 0, s => s
  | _ + 1, [] => []
  | fuel + 1, c :: rest =>
    match matchesCI (p0 :: ps) (c :: rest) with
    | some rem => repl ++ replaceLitCIAux p0 ps repl fuel rem
    | none => c :: replaceLitCIAux p0 ps repl fuel rest

/-- `String.prototype.replace` with a case-insensitive global literal
pattern (non-empty, split as head and tail). -/
def replaceLitCI (p0 : Char) (ps repl s : List Char) : List Char :=
  replaceLitCIAux p0 ps repl s.length s

/-- Whether the case-insensitive literal pattern occurs anywhere. -/
def hasMatchCI (p0 : Char) (ps : List Char) : List Char → Bool
  | [] => false
  | c :: rest => (matchesCI (p0 :: ps) (c :: rest)).isSome || hasMatchCI p0 ps rest

theorem replaceLitCIAux_of_no_match (p0 : Char) (ps : List Char)
    (s : List Char) (h : hasMatchCI p0 ps s = false) (repl : List Char)
    (fuel : Nat) : replaceLitCIAux p0 ps repl fuel s = s := by
  induction fuel generalizing s with
  | zero => rfl
  | succ fuel ih =>
    cases s with
    | nil => rfl
    | cons c rest =>
      rw [hasMatchCI, Bool.or_eq_false_iff] at h
      have hm : matchesCI (p0 :: ps) (c :: rest) = none :=
        Option.not_isSome_iff_eq_none.mp (by simp [h.1])
      rw [replaceLitCIAux, hm]
      rw [ih rest h.2]

theorem replaceLitCI_of_no_match (p0 : Char) (ps : List Char)
    (s : List Char) (h : hasMatchCI p0 ps s = false) (repl : List Char) :
    replaceLitCI p0 ps repl s = s :=
  replaceLitCIAux_of_no_match p0 ps s h repl s.length

/-- The `[action]` substitution step of `buildFullEndpoint`
(`if (actionName) route.replace(/\[action\]/gi, actionName.toLowerCase())`,
where an empty action name is falsy). -/
def applyActionCI (actionName : Option String) (s : List Char) : List Char :=
  match actionName with
  | some a =>
    if a = "" then s
    else replaceLitCI '[' "action]".data (a.data.map lowerChar) s
  | none => s

theorem applyActionCI_of_no_match (actionName : Option String)
    (s : List Char) (h : hasMatchCI '[' "action]".data s = false) :
    applyActionCI actionName s = s := by
  cases actionName with
  | none => rfl
  | some a =>
    by_cases ha : a = ""
    · simp [applyActionCI, ha]
    · simp [applyActionCI, ha, replaceLitCI_of_no_match _ _ s h]

/-- `route.replace(/\/+/g, '/')`: collapse runs of slashes, one pass with a
previous-character flag. -/
def collapseSlashesAux (prevSlash : Bool) : List Char → List Char
  | [] => []
  | c :: rest =>
    if c = '/' then
      if prevSlash then collapseSlashesAux true rest
      else '/' :: collapseSlashesAux true rest
    else c :: collapseSlashesAux false rest

def collapseSlashes (l : List Char) : List Char :=
  collapseSlashesAux false l

namespace BackendScanner

/-- `buildFullEndpoint` from `scanner/backendScanner.ts`: substitute the
`[controller]` and `[action]` placeholders case-insensitively, ensure a
leading slash, join the method route, ensure an `/api` prefix without
duplicating one already present (or already implied by the class route),
collapse duplicate slashes, and strip a single trailing slash. -/
def buildFullEndpoint (classRoute methodRoute controllerName : String)
    (actionName : Option String) : String :=
  let ctrl := controllerName.data.map lowerChar
  let route0 := replaceLitCI '[' "controller]".data ctrl classRoute.data
  let route1 := applyActionCI actionName route0
  let route2 :=
    if route1 ≠ [] ∧ ¬List.isPrefixOf "/".data route1 then '/' :: route1
    else route1
  let route3 :=
    if methodRoute.data ≠ [] then
      let pm := applyActionCI actionName
        (replaceLitCI '[' "controller]".data ctrl methodRoute.data)
      let routeS :=
        if route2 ≠ [] ∧ ¬route2.getLast? = some '/' ∧ pm ≠ [] ∧
            ¬List.isPrefixOf "/".data pm then
          route2 ++ ['/']
        else route2
      routeS ++ pm
    else route2
  let route4 :=
    if route3 ≠ [] then
      if ¬List.isPrefixOf "/api".data (route3.map lowerChar) ∧
          ¬List.isPrefixOf "api".data (route3.map lowerChar) then
        if List.isPrefixOf "api".data (classRoute.data.map lowerChar) then
          '/' :: route3.tail
        else "/api".data ++ route3
      else route3
    else "/api".data
  let route5 := collapseSlashes route4
  let route6 :=
    if route5.length > 1 ∧ route5.getLast? = some '/' then route5.dropLast
    else route5
  String.mk route6

end BackendScanner

/-- C7: composing class route `api/[controller]` with method route `{id}`
inside `UsersController` (controller name `Users` after suffix stripping)
yields `/api/users/{id}`, for any action name: the placeholder is replaced
case-insensitively by the lowercased name, a leading slash is added, no
second `/api` prefix is prepended, and duplicate slashes are collapsed. -/
theorem controller_placeholder_resolution (actionName : Option String) :
    BackendScanner.buildFullEndpoint "api/[controller]" "{id}" "Users"
      actionName = "/api/users/{id}" := by
  have h1 : applyActionCI actionName "api/users".data = "api/users".data :=
    applyActionCI_of_no_match actionName _ (by decide)
  have hpm0 : replaceLitCI '[' "controller]".data
      ("Users".data.map lowerChar) "{id}".data = "{id}".data :=
    replaceLitCI_of_no_match '[' "controller]".data "{id}".data (by decide) _
  have h2 : applyActionCI actionName "{id}".data = "{id}".data :=
    applyActionCI_of_no_match actionName _ (by decide)
  have hr0 : replaceLitCI '[' "controller]".data
      ("Users".data.map lowerChar) "api/[controller]".data =
      "api/users".data := by decide
  simp only [BackendScanner.buildFullEndpoint, hr0, hpm0, h1, h2]
  decide

/-- Configuration distinguishing the two scanners' constraint-stripping
regexes: the ASP.NET pattern
`\{(\*{0,2})([a-zA-Z_][a-zA-Z0-9_]*)(?::[^}?]+)?(\?)?\}` allows up to two
leading stars, an optional trailing `?`, and stops the constraint at `?`;
the FastAPI pattern `\{([a-zA-Z_][a-zA-Z0-9_]*)(?::[^}]+)?\}` has neither
stars nor the optional marker and lets the constraint run to the brace. -/
structure NormCfg where
  stars : Bool
  opt : Bool
  qStops : Bool
deriving DecidableEq, Repr

def dotnetCfg : NormCfg := ⟨true, true, true⟩

def fastapiCfg : NormCfg := ⟨false, false, false⟩

/-- `[a-zA-Z_]`. -/
def isNameStart (c : Char) : Bool := c.isAlpha || c == '_'

/-- `[a-zA-Z0-9_]`. -/
def isNameChar (c : Char) : Bool := isNameStart c || c.isDigit

/-- The constraint character class: `[^}?]` or `[^}]`. -/
def isConstrChar (cfg : NormCfg) (c : Char) : Bool :=
  c != '}' && (!cfg.qStops || c != '?')

/-- Parser states for a parameter-group match, after the opening brace. -/
inductive PState
  | stars (n : Nat)
  | nameRest
  | constrFirst
  | constrRest
  | afterQ
deriving DecidableEq, Repr

/-- Deterministic matcher for the group body after `{`: consumes up to the
closing `}` and returns the kept characters (`$1$2$3`: stars, name, optional
`?`; the `:constraint` is dropped) together with the input remainder.
Returns `none` exactly when the regex does not match at this position; the
regex engine's backtracking is vacuous here because every decision point is
forced by disjoint first-character classes. -/
def runP (cfg : NormCfg) : PState → List Char → Option (List Char × List Char)
  | _, [] => none
  | .stars n, c :: rest =>
    if cfg.stars ∧ c = '*' ∧ n < 2 then
      (runP cfg (.stars (n + 1)) rest).map (fun p => (c :: p.1, p.2))
    else if isNameStart c then
      (runP cfg .nameRest rest).map (fun p => (c :: p.1, p.2))
    else none
  | .nameRest, c :: rest =>
    if isNameChar c then
      (runP cfg .nameRest rest).map (fun p => (c :: p.1, p.2))
    else if c = '}' then some ([], rest)
    else if c = ':' then runP cfg .constrFirst rest
    else if cfg.opt ∧ c = '?' then
      (runP cfg .afterQ rest).map (fun p => ('?' :: p.1, p.2))
    else none
  | .constrFirst, c :: rest =>
    if isConstrChar cfg c then runP cfg .constrRest rest else none
  | .constrRest, c :: rest =>
    if isConstrChar cfg c then runP cfg .constrRest rest
    else if c = '}' then some ([], rest)
    else if cfg.opt ∧ c = '?' then
      (runP cfg .afterQ rest).map (fun p => ('?' :: p.1, p.2))
    else none
  | .afterQ, c :: rest => if c = '}' then some ([], rest) else none

theorem runP_length (cfg : NormCfg) : ∀ (l : List Char) (st : PState)
    (mid rem : List Char), runP cfg st l = some (mid, rem) →
    rem.length < l.length := by
  intro l
  induction l with
  | nil =>
    intro st mid rem h
    cases st <;> simp [runP] at h
  | cons c rest ih =>
    intro st mid rem h
    have hmap : ∀ (st2 : PState) (k : Char),
        (runP cfg st2 rest).map (fun p => (k :: p.1, p.2)) = some (mid, rem) →
        rem.length < rest.length + 1 := by
      intro st2 k hm
      rcases hr : runP cfg st2 rest with _ | ⟨m2, r2⟩
      · rw [hr] at hm
        exact absurd hm (by simp)
      · rw [hr] at hm
        have hr2 : r2 = rem := congrArg Prod.snd (Option.some.inj hm)
        have := ih st2 m2 r2 hr
        rw [hr2] at this
        omega
    cases st with
    | stars n =>
      rw [runP] at h
      split_ifs at h with h1 h2
      · exact hmap _ _ h
      · exact hmap _ _ h
    | nameRest =>
      rw [runP] at h
      split_ifs at h with h1 h2 h3 h4
      · exact hmap _ _ h
      · have hh : rest = rem := congrArg Prod.snd (Option.some.inj h)
        simp only [← hh, List.length_cons]
        omega
      · have := ih _ _ _ h
        simp only [List.length_cons]
        omega
      · exact hmap _ _ h
    | constrFirst =>
      rw [runP] at h
      split_ifs at h with h1
      have := ih _ _ _ h
      simp only [List.length_cons]
      omega
    | constrRest =>
      rw [runP] at h
      split_ifs at h with h1 h2 h3
      · have := ih _ _ _ h
        simp only [List.length_cons]
        omega
      · have hh : rest = rem := congrArg Prod.snd (Option.some.inj h)
        simp only [← hh, List.length_cons]
        omega
      · exact hmap _ _ h
    | afterQ =>
      rw [runP] at h
      split_ifs at h with h1
      have hh : rest = rem := congrArg Prod.snd (Option.some.inj h)
      simp only [← hh, List.length_cons]
      omega

/-- Global replacement `s.replace(pattern, '{$1$2$3}')`: scan left to right,
rebuild each matched group without its constraint, advance one character
when the pattern does not match. -/
def normGroups (cfg : NormCfg) (s : List Char) : List Char :=
  match s with
  | [] => []
  | c :: rest =>
    if c = '{' then
      match hr : runP cfg (.stars 0) rest with
      | some (mid, rem) => '{' :: (mid ++ '}' :: normGroups cfg rem)
      | none => c :: normGroups cfg rest
    else c :: normGroups cfg rest
termination_by s.length
decreasing_by
  · have := runP_length cfg rest (.stars 0) mid rem hr
    simp only [List.length_cons]
    omega
  · simp
  · simp

theorem isConstrChar_of_ne (cfg : NormCfg) (c : Char) (h1 : c ≠ '}')
    (h2 : c ≠ '?') : isConstrChar cfg c = true := by
  simp [isConstrChar, bne_iff_ne, h1, h2]

theorem ne_of_isNameStart (c : Char) (h : isNameStart c = true) :
    c ≠ '}' ∧ c ≠ '?' ∧ c ≠ '{' ∧ c ≠ '*' := by
  simp only [isNameStart, Bool.or_eq_true, beq_iff_eq] at h
  rcases h with h | h
  · refine ⟨?_, ?_, ?_, ?_⟩ <;>
      (intro hc; subst hc; exact absurd h (by decide))
  · subst h
    refine ⟨by decide, by decide, by decide, by decide⟩

theorem ne_of_isNameChar (c : Char) (h : isNameChar c = true) :
    c ≠ '}' ∧ c ≠ '?' ∧ c ≠ '{' := by
  simp only [isNameChar, Bool.or_eq_true] at h
  rcases h with h | h
  · obtain ⟨a, b, d, _⟩ := ne_of_isNameStart c h
    exact ⟨a, b, d⟩
  · simp only [Char.isDigit] at h
    refine ⟨?_, ?_, ?_⟩ <;> (intro hc; subst hc; exact absurd h (by decide))

theorem runP_afterQ_out (cfg : NormCfg) (l mid rem : List Char)
    (h : runP cfg .afterQ l = some (mid, rem)) : mid = [] := by
  cases l with
  | nil => simp [runP] at h
  | cons c rest =>
    rw [runP] at h
    split_ifs at h with h1
    exact (congrArg Prod.fst (Option.some.inj h)).symm

theorem runP_constr_out (cfg : NormCfg) : ∀ (l : List Char) (st : PState),
    st = .constrFirst ∨ st = .constrRest →
    ∀ mid rem, runP cfg st l = some (mid, rem) →
    mid = [] ∨ (mid = ['?'] ∧ cfg.opt = true) := by
  intro l
  induction l with
  | nil =>
    intro st hst mid rem h
    rcases hst with h1 | h1 <;> subst h1 <;> simp [runP] at h
  | cons c rest ih =>
    intro st hst mid rem h
    rcases hst with h1 | h1 <;> subst h1
    · rw [runP] at h
      split_ifs at h with hc
      exact ih .constrRest (Or.inr rfl) mid rem h
    · rw [runP] at h
      split_ifs at h with hc h2 h3
      · exact ih .constrRest (Or.inr rfl) mid rem h
      · exact Or.inl (congrArg Prod.fst (Option.some.inj h)).symm
      · rcases hr : runP cfg .afterQ rest with _ | ⟨m2, r2⟩
        · rw [hr] at h
          exact absurd h (by simp)
        · rw [hr] at h
          have hm : '?' :: m2 = mid := congrArg Prod.fst (Option.some.inj h)
          have hm2 : m2 = [] := runP_afterQ_out cfg rest m2 r2 hr
          subst hm2
          exact Or.inr ⟨hm.symm, h3.1⟩

theorem runP_cross (cfg : NormCfg) : ∀ (l : List Char) (st : PState)
    (mid rem : List Char), runP cfg st l = some (mid, rem) →
    ∃ mid2, runP cfg .constrRest l = some (mid2, rem) := by
  intro l
  induction l with
  | nil =>
    intro st mid rem h
    cases st <;> simp [runP] at h
  | cons c rest ih =>
    intro st mid rem h
    cases st with
    | stars n =>
      rw [runP] at h
      split_ifs at h with h1 h2
      · rcases hr : runP cfg (.stars (n + 1)) rest with _ | ⟨m2, r2⟩
        · rw [hr] at h
          exact absurd h (by simp)
        · rw [hr] at h
          have hr2 : r2 = rem := congrArg Prod.snd (Option.some.inj h)
          subst hr2
          obtain ⟨mid2, hm2⟩ := ih _ _ _ hr
          have hcc : isConstrChar cfg c = true := by
            rw [h1.2.1]
            simp [isConstrChar]
          refine ⟨mid2, ?_⟩
          rw [runP, if_pos hcc, hm2]
      · rcases hr : runP cfg .nameRest rest with _ | ⟨m2, r2⟩
        · rw [hr] at h
          exact absurd h (by simp)
        · rw [hr] at h
          have hr2 : r2 = rem := congrArg Prod.snd (Option.some.inj h)
          subst hr2
          obtain ⟨mid2, hm2⟩ := ih _ _ _ hr
          obtain ⟨a, b, _, _⟩ := ne_of_isNameStart c h2
          refine ⟨mid2, ?_⟩
          rw [runP, if_pos (isConstrChar_of_ne cfg c a b), hm2]
    | nameRest =>
      rw [runP] at h
      split_ifs at h with h1 h2 h3 h4
      · rcases hr : runP cfg .nameRest rest with _ | ⟨m2, r2⟩
        · rw [hr] at h
          exact absurd h (by simp)
        · rw [hr] at h
          have hr2 : r2 = rem := congrArg Prod.snd (Option.some.inj h)
          subst hr2
          obtain ⟨mid2, hm2⟩ := ih _ _ _ hr
          obtain ⟨a, b, _⟩ := ne_of_isNameChar c h1
          refine ⟨mid2, ?_⟩
          rw [runP, if_pos (isConstrChar_of_ne cfg c a b), hm2]
      · subst h2
        have hr2 : rest = rem := congrArg Prod.snd (Option.some.inj h)
        subst hr2
        refine ⟨[], ?_⟩
        rw [runP]
        have hcc : isConstrChar cfg ('}' : Char) = false := by
          simp [isConstrChar]
        rw [if_neg (by simp [hcc]), if_pos rfl]
      · subst h3
        obtain ⟨mid2, hm2⟩ := ih _ _ _ h
        have hcc : isConstrChar cfg (':' : Char) = true := by
          simp [isConstrChar]
        refine ⟨mid2, ?_⟩
        rw [runP, if_pos hcc, hm2]
      · obtain ⟨hopt, hq⟩ := h4
        subst hq
        rcases hr : runP cfg .afterQ rest with _ | ⟨m2, r2⟩
        · rw [hr] at h
          exact absurd h (by simp)
        · rw [hr] at h
          have hr2 : r2 = rem := congrArg Prod.snd (Option.some.inj h)
          subst hr2
          by_cases hqs : cfg.qStops
          · have hcc : isConstrChar cfg ('?' : Char) = false := by
              simp [isConstrChar, hqs]
            refine ⟨'?' :: m2, ?_⟩
            rw [runP, if_neg (by simp [hcc]), if_neg (by decide),
              if_pos ⟨hopt, rfl⟩, hr]
            rfl
          · have hcc : isConstrChar cfg ('?' : Char) = true := by
              simp [isConstrChar, hqs]
            obtain ⟨mid2, hm2⟩ := ih _ _ _ hr
            refine ⟨mid2, ?_⟩
            rw [runP, if_pos hcc, hm2]
    | constrFirst =>
      rw [runP] at h
      split_ifs at h with h1
      refine ⟨mid, ?_⟩
      rw [runP, if_pos h1, h]
    | constrRest => exact ⟨mid, h⟩
    | afterQ =>
      rw [runP] at h
      split_ifs at h with h1
      subst h1
      have hr2 : rest = rem := congrArg Prod.snd (Option.some.inj h)
      subst hr2
      refine ⟨[], ?_⟩
      rw [runP]
      have hcc : isConstrChar cfg ('}' : Char) = false := by
        simp [isConstrChar]
      rw [if_neg (by simp [hcc]), if_pos rfl]

theorem normGroups_nil (cfg : NormCfg) : normGroups cfg [] = [] := by
  rw [normGroups]

theorem normGroups_cons_brace_some (cfg : NormCfg) (rest mid rem : List Char)
    (hr : runP cfg (.stars 0) rest = some (mid, rem)) :
    normGroups cfg ('{' :: rest) = '{' :: (mid ++ '}' :: normGroups cfg rem) := by
  rw [normGroups, if_pos rfl]
  split
  · rename_i m2 r2 hr2
    rw [hr] at hr2
    have h1 : mid = m2 := congrArg Prod.fst (Option.some.inj hr2)
    have h2 : rem = r2 := congrArg Prod.snd (Option.some.inj hr2)
    rw [h1, h2]
  · rename_i hr2
    rw [hr] at hr2
    exact absurd hr2 (by simp)

theorem normGroups_cons_brace_none (cfg : NormCfg) (rest : List Char)
    (hr : runP cfg (.stars 0) rest = none) :
    normGroups cfg ('{' :: rest) = '{' :: normGroups cfg rest := by
  rw [normGroups, if_pos rfl]
  split
  · rename_i m2 r2 hr2
    rw [hr] at hr2
    exact absurd hr2 (by simp)
  · rfl

theorem normGroups_cons_other (cfg : NormCfg) (c : Char) (rest : List Char)
    (hc : ¬c = '{') :
    normGroups cfg (c :: rest) = c :: normGroups cfg rest := by
  rw [normGroups]
  rw [if_neg hc]

/-- A successfully matched group, rendered without its constraint, parses
again from the same entry state and reproduces itself exactly. -/
theorem runP_reparse (cfg : NormCfg) : ∀ (l : List Char) (st : PState),
    (∃ n, st = .stars n) ∨ st = .nameRest →
    ∀ mid rem w, runP cfg st l = some (mid, rem) →
    runP cfg st (mid ++ '}' :: w) = some (mid, w) := by
  intro l
  induction l with
  | nil =>
    intro st hst mid rem w h
    rcases hst with ⟨n, h1⟩ | h1 <;> subst h1 <;> simp [runP] at h
  | cons c rest ih =>
    intro st hst mid rem w h
    rcases hst with ⟨n, h1⟩ | h1 <;> subst h1
    · rw [runP] at h
      split_ifs at h with h1 h2
      · rcases hr : runP cfg (.stars (n + 1)) rest with _ | ⟨m2, r2⟩
        · rw [hr] at h
          exact absurd h (by simp)
        · rw [hr] at h
          have hm : c :: m2 = mid := congrArg Prod.fst (Option.some.inj h)
          subst hm
          have hih := ih (.stars (n + 1)) (Or.inl ⟨n + 1, rfl⟩) m2 r2 w hr
          rw [List.cons_append, runP, if_pos h1, hih]
          rfl
      · rcases hr : runP cfg .nameRest rest with _ | ⟨m2, r2⟩
        · rw [hr] at h
          exact absurd h (by simp)
        · rw [hr] at h
          have hm : c :: m2 = mid := congrArg Prod.fst (Option.some.inj h)
          subst hm
          have hih := ih .nameRest (Or.inr rfl) m2 r2 w hr
          rw [List.cons_append, runP, if_neg h1, if_pos h2, hih]
          rfl
    · rw [runP] at h
      split_ifs at h with h1 h2 h3 h4
      · rcases hr : runP cfg .nameRest rest with _ | ⟨m2, r2⟩
        · rw [hr] at h
          exact absurd h (by simp)
        · rw [hr] at h
          have hm : c :: m2 = mid := congrArg Prod.fst (Option.some.inj h)
          subst hm
          have hih := ih .nameRest (Or.inr rfl) m2 r2 w hr
          rw [List.cons_append, runP, if_pos h1, hih]
          rfl
      · have hm : ([] : List Char) = mid := congrArg Prod.fst (Option.some.inj h)
        subst hm
        rw [List.nil_append, runP, if_neg (by decide), if_pos rfl]
      · rcases runP_constr_out cfg rest .constrFirst (Or.inl rfl) mid rem h with
          hm | ⟨hm, hopt⟩
        · subst hm
          rw [List.nil_append, runP, if_neg (by decide), if_pos rfl]
        · subst hm
          rw [show (['?'] : List Char) ++ '}' :: w = '?' :: '}' :: w from rfl]
          rw [runP, if_neg (by decide), if_neg (by decide), if_neg (by decide),
            if_pos ⟨hopt, rfl⟩]
          rw [show runP cfg .afterQ ('}' :: w) = some ([], w) from by
            rw [runP, if_pos rfl]]
          rfl
      · rcases hr : runP cfg .afterQ rest with _ | ⟨m2, r2⟩
        · rw [hr] at h
          exact absurd h (by simp)
        · rw [hr] at h
          have hm : '?' :: m2 = mid := congrArg Prod.fst (Option.some.inj h)
          have hm2 : m2 = [] := runP_afterQ_out cfg rest m2 r2 hr
          subst hm2
          subst hm
          rw [show ('?' :: [] : List Char) ++ '}' :: w = '?' :: '}' :: w from rfl]
          rw [runP, if_neg (by decide), if_neg (by decide), if_neg (by decide),
            if_pos ⟨h4.1, rfl⟩]
          rw [show runP cfg .afterQ ('}' :: w) = some ([], w) from by
            rw [runP, if_pos rfl]]
          rfl

theorem runP_brace_none (cfg : NormCfg) (st : PState)
    (hst : (∃ n, st = .stars n) ∨ st = .nameRest ∨ st = .afterQ)
    (X : List Char) : runP cfg st ('{' :: X) = none := by
  rcases hst with ⟨n, h⟩ | h | h <;> subst h <;> rw [runP]
  · rw [if_neg (fun hh => absurd hh.2.1 (by decide)), if_neg (by decide)]
  · rw [if_neg (by decide), if_neg (by decide), if_neg (by decide),
      if_neg (fun hh => absurd hh.2 (by decide))]
  · rw [if_neg (by decide)]

/-- Normalizing the text cannot make a previously failing group match:
failure of the group parser is preserved by `normGroups`. -/
theorem runP_sim (cfg : NormCfg) : ∀ (N : Nat) (u : List Char),
    u.length ≤ N → ∀ st, runP cfg st u = none →
    runP cfg st (normGroups cfg u) = none := by
  intro N
  induction N with
  | zero =>
    intro u hu st h
    have hnil : u = [] := List.eq_nil_of_length_eq_zero (Nat.le_zero.mp hu)
    subst hnil
    rw [normGroups_nil]
    exact h
  | succ N ih =>
    intro u hu st h
    cases u with
    | nil =>
      rw [normGroups_nil]
      exact h
    | cons c rest =>
      have hrest : rest.length ≤ N := by
        simp only [List.length_cons] at hu
        omega
      have hbc : isConstrChar cfg ('{' : Char) = true := by
        simp [isConstrChar]
      by_cases hc : c = '{'
      · subst hc
        rcases hr : runP cfg (.stars 0) rest with _ | ⟨mid, rem⟩
        · rw [normGroups_cons_brace_none cfg rest hr]
          cases st with
          | stars n => exact runP_brace_none cfg _ (Or.inl ⟨n, rfl⟩) _
          | nameRest => exact runP_brace_none cfg _ (Or.inr (Or.inl rfl)) _
          | afterQ => exact runP_brace_none cfg _ (Or.inr (Or.inr rfl)) _
          | constrFirst =>
            rw [runP, if_pos hbc] at h ⊢
            exact ih rest hrest .constrRest h
          | constrRest =>
            rw [runP, if_pos hbc] at h ⊢
            exact ih rest hrest .constrRest h
        · rw [normGroups_cons_brace_some cfg rest mid rem hr]
          cases st with
          | stars n => exact runP_brace_none cfg _ (Or.inl ⟨n, rfl⟩) _
          | nameRest => exact runP_brace_none cfg _ (Or.inr (Or.inl rfl)) _
          | afterQ => exact runP_brace_none cfg _ (Or.inr (Or.inr rfl)) _
          | constrFirst =>
            rw [runP, if_pos hbc] at h
            obtain ⟨mid2, hm2⟩ := runP_cross cfg rest _ _ _ hr
            rw [hm2] at h
            exact absurd h (by simp)
          | constrRest =>
            rw [runP, if_pos hbc] at h
            obtain ⟨mid2, hm2⟩ := runP_cross cfg rest _ _ _ hr
            rw [hm2] at h
            exact absurd h (by simp)
      · rw [normGroups_cons_other cfg c rest hc]
        cases st with
        | stars n =>
          rw [runP] at h ⊢
          split_ifs at h ⊢ with h1 h2
          · rcases hr : runP cfg (.stars (n + 1)) rest with _ | p
            · rw [ih rest hrest _ hr]
              rfl
            · rw [hr] at h
              exact absurd h (by simp)
          · rcases hr : runP cfg .nameRest rest with _ | p
            · rw [ih rest hrest _ hr]
              rfl
            · rw [hr] at h
              exact absurd h (by simp)
          · rfl
        | nameRest =>
          rw [runP] at h ⊢
          split_ifs at h ⊢ with h1 h2 h3 h4
          · rcases hr : runP cfg .nameRest rest with _ | p
            · rw [ih rest hrest _ hr]
              rfl
            · rw [hr] at h
              exact absurd h (by simp)
          · exact ih rest hrest .constrFirst h
          · rcases hr : runP cfg .afterQ rest with _ | p
            · rw [ih rest hrest _ hr]
              rfl
            · rw [hr] at h
              exact absurd h (by simp)
          · rfl
        | constrFirst =>
          rw [runP] at h ⊢
          split_ifs at h ⊢ with h1
          · exact ih rest hrest .constrRest h
          · rfl
        | constrRest =>
          rw [runP] at h ⊢
          split_ifs at h ⊢ with h1 h2 h3
          · exact ih rest hrest .constrRest h
          · rcases hr : runP cfg .afterQ rest with _ | p
            · rw [ih rest hrest _ hr]
              rfl
            · rw [hr] at h
              exact absurd h (by simp)
          · rfl
        | afterQ =>
          rw [runP] at h ⊢
          split_ifs at h ⊢ with h1
          · rfl

/-- Idempotence of the constraint-stripping replacement. -/
theorem normGroups_idem_aux (cfg : NormCfg) : ∀ (N : Nat) (s : List Char),
    s.length ≤ N →
    normGroups cfg (normGroups cfg s) = normGroups cfg s := by
  intro N
  induction N with
  | zero =>
    intro s hs
    have hnil : s = [] := List.eq_nil_of_length_eq_zero (Nat.le_zero.mp hs)
    subst hnil
    rw [normGroups_nil, normGroups_nil]
  | succ N ih =>
    intro s hs
    cases s with
    | nil => rw [normGroups_nil, normGroups_nil]
    | cons c rest =>
      have hrest : rest.length ≤ N := by
        simp only [List.length_cons] at hs
        omega
      by_cases hc : c = '{'
      · subst hc
        rcases hr : runP cfg (.stars 0) rest with _ | ⟨mid, rem⟩
        · rw [normGroups_cons_brace_none cfg rest hr]
          rw [normGroups_cons_brace_none cfg (normGroups cfg rest)
            (runP_sim cfg N rest hrest _ hr)]
          rw [ih rest hrest]
        · have hrem : rem.length ≤ N := by
            have := runP_length cfg rest (.stars 0) mid rem hr
            simp only [List.length_cons] at hs
            omega
          rw [normGroups_cons_brace_some cfg rest mid rem hr]
          rw [normGroups_cons_brace_some cfg (mid ++ '}' :: normGroups cfg rem)
            mid (normGroups cfg rem)
            (runP_reparse cfg rest _ (Or.inl ⟨0, rfl⟩) mid rem _ hr)]
          rw [ih rem hrem]
      · rw [normGroups_cons_other cfg c rest hc]
        rw [normGroups_cons_other cfg c (normGroups cfg rest) hc]
        rw [ih rest hrest]

theorem normGroups_idem (cfg : NormCfg) (s : List Char) :
    normGroups cfg (normGroups cfg s) = normGroups cfg s :=
  normGroups_idem_aux cfg s.length s le_rfl

namespace BackendScanner

/-- `normalizeEndpoint` from the attribute-style scanner
(`backendScanner.ts`): strip route-parameter type constraints, keeping any
`*`/`**` prefix and `?` suffix. -/
def normalizeEndpoint (endpoint : String) : String :=
  String.mk (normGroups dotnetCfg endpoint.data)

end BackendScanner

namespace FastApiScanner

/-- `normalizeEndpoint` from the FastAPI scanner: strip parameter type
constraints. -/
def normalizeEndpoint (endpoint : String) : String :=
  String.mk (normGroups fastapiCfg endpoint.data)

end FastApiScanner

/-- C6: the constraint-stripping normalization of both backend scanners is
idempotent — applying it to its own output returns the output unchanged. -/
theorem normalizeEndpoint_idempotent :
    (∀ e, BackendScanner.normalizeEndpoint (BackendScanner.normalizeEndpoint e) =
      BackendScanner.normalizeEndpoint e) ∧
    (∀ e, FastApiScanner.normalizeEndpoint (FastApiScanner.normalizeEndpoint e) =
      FastApiScanner.normalizeEndpoint e) := by
  constructor <;> intro e
  · show String.mk (normGroups dotnetCfg (String.mk
      (normGroups dotnetCfg e.data)).data) = _
    rw [show (String.mk (normGroups dotnetCfg e.data)).data =
      normGroups dotnetCfg e.data from rfl]
    rw [normGroups_idem]
    rfl
  · show String.mk (normGroups fastapiCfg (String.mk
      (normGroups fastapiCfg e.data)).data) = _
    rw [show (String.mk (normGroups fastapiCfg e.data)).data =
      normGroups fastapiCfg e.data from rfl]
    rw [normGroups_idem]
    rfl

namespace FastApiScanner

/-- `MAX_IMPORT_DEPTH` from `backendScannerFastApi.ts`. -/
def MAX_IMPORT_DEPTH : Nat := 10

/-- One line of a Python file as recognized by the scanner's per-line
regexes, pre-classified: a route decorator `@routerVar.verb("path")` or an
`parentVar.include_router(childVar, prefix="pre")` call.  Lines matching
neither regex contribute nothing and are omitted. -/
inductive PyStmt
  | routeDecl (routerVar verb path : String)
  | includeRouter (parentVar childVar pre : String)
deriving DecidableEq, Repr

/-- An import line, pre-classified by the regex it matches in
`findImportSource`: `from module import a, b as c` (items keep the original
name and the optional alias) or `import module as alias`. -/
inductive PyImport
  | fromImport (modulePath : String) (items : List (String × Option String))
  | importAs (modulePath aliasName : String)
deriving DecidableEq, Repr

/-- A Python file as the scanner reads it: the router variables defined by
`var = APIRouter(...)` lines (first pass), the recognized statements in line
order, and the import lines. -/
structure PyFile where
  routerDefs : List String
  stmts : List PyStmt
  imports : List PyImport
deriving DecidableEq, Repr

/-- The file system visible to the scanner: absolute path to content.
`readFile` doubles as `fs.existsSync` (a file exists iff it can be read). -/
abbrev PyFS := List (String × PyFile)

def readFile : PyFS → String → Option PyFile
  | [], _ => none
  | (p, f) :: rest, key => if key = p then some f else readFile rest key

/-- `path.normalize(filePath).toLowerCase()`, the visited-set key; paths in
the model are already in normal form, so only the lowercasing remains. -/
def normPath (p : String) : String :=
  String.mk (p.data.map lowerChar)

/-- `path.dirname`. -/
def dirname (p : String) : String :=
  if p.data.contains '/' then
    String.mk (((p.data.reverse.dropWhile (fun c => c != '/')).tail).reverse)
  else "."

/-- `resolveModulePath` from `backendScannerFastApi.ts`: only workspace
packages resolve; try `<root>/<parts>.py`, then the package
`__init__.py`, then — for a relative import — the current directory. -/
def resolveModulePath (modulePath backendRoot currentDir : String)
    (fs : PyFS) (wp : List String) : Option String :=
  let parts := modulePath.splitOn "."
  let root := parts.headD ""
  if ¬wp.contains root then none
  else
    let relativePath := String.intercalate "/" parts
    let pyFilePath := backendRoot ++ "/" ++ relativePath ++ ".py"
    if (readFile fs pyFilePath).isSome then some pyFilePath
    else
      let initPath := backendRoot ++ "/" ++ relativePath ++ "/__init__.py"
      if (readFile fs initPath).isSome then some initPath
      else if root = "" then
        let relPath := String.intercalate "/" parts.tail
        let relPyPath := currentDir ++ "/" ++ relPath ++ ".py"
        if (readFile fs relPyPath).isSome then some relPyPath else none
      else none

/-- The per-item scan of a `from … import …` line. -/
def resolveItems (varName modulePath backendRoot currentDir : String)
    (fs : PyFS) (wp : List String) :
    List (String × Option String) → Option (String × String)
  | [] => none
  | (orig, aliasOpt) :: rest =>
    match aliasOpt with
    | some al =>
      if al = varName then
        match resolveModulePath modulePath backendRoot currentDir fs wp with
        | some resolved => some (resolved, orig)
        | none => resolveItems varName modulePath backendRoot currentDir fs wp rest
      else resolveItems varName modulePath backendRoot currentDir fs wp rest
    | none =>
      if orig = varName then
        match resolveModulePath modulePath backendRoot currentDir fs wp with
        | some resolved => some (resolved, varName)
        | none => resolveItems varName modulePath backendRoot currentDir fs wp rest
      else resolveItems varName modulePath backendRoot currentDir fs wp rest

/-- `findImportSource`: scan the import lines in order for the router
variable; an `import … as` match assumes the default variable `router`. -/
def findImportSource (imports : List PyImport)
    (varName backendRoot currentDir : String) (fs : PyFS) (wp : List String) :
    Option (String × String) :=
  match imports with
  | [] => none
  | .fromImport m items :: rest =>
    match resolveItems varName m backendRoot currentDir fs wp items with
    | some r => some r
    | none => findImportSource rest varName backendRoot currentDir fs wp
  | .importAs m al :: rest =>
    if al = varName then
      match resolveModulePath m backendRoot currentDir fs wp with
      | some r => some (r, "router")
      | none => findImportSource rest varName backendRoot currentDir fs wp
    else findImportSource rest varName backendRoot currentDir fs wp

/-- `buildFullPath` from `backendScannerFastApi.ts`. -/
def buildFullPath (pre routePath : String) : String :=
  let full0 :=
    if pre.data ≠ [] ∧ ¬List.isPrefixOf "/".data pre.data then '/' :: pre.data
    else pre.data
  let route :=
    if routePath.data ≠ [] ∧ ¬List.isPrefixOf "/".data routePath.data then
      '/' :: routePath.data
    else routePath.data
  let full1 :=
    if full0 ≠ [] ∧ route ≠ [] then
      if full0.getLast? = some '/' ∧ List.isPrefixOf "/".data route then
        full0 ++ route.tail
      else full0 ++ route
    else if full0 ≠ [] then full0
    else if route ≠ [] then route
    else "/".data
  let full2 := collapseSlashes full1
  String.mk
    (if full2.length > 1 ∧ full2.getLast? = some '/' then full2.dropLast
     else full2)

/-- `extractRouteParams` (FastAPI): collect the `{name}` / `{name:type}`
parameter names left to right, deduplicating by first occurrence. -/
def extractRouteParams (s : List Char) (acc : List String) : List String :=
  match s with
  | [] => acc
  | c :: rest =>
    if c = '{' then
      match hr : runP fastapiCfg (.stars 0) rest with
      | some (mid, rem) =>
        let name := String.mk mid
        extractRouteParams rem
          (if acc.contains name then acc else acc ++ [name])
      | none => extractRouteParams rest acc
    else extractRouteParams rest acc
termination_by s.length
decreasing_by
  · have := runP_length fastapiCfg rest (.stars 0) mid rem hr
    simp only [List.length_cons]
    omega
  · simp
  · simp

/-- The mutable scanner state: collected endpoints and the visited set. -/
structure ScanState where
  endpoints : List BackendEndpoint
  visited : List String
deriving DecidableEq, Repr

/-- Router-variable lookup in the per-file routers map. -/
def lookupRouter : List (String × String) → String → Option String
  | [], _ => none
  | (k, v) :: rest, key => if key = k then some v else lookupRouter rest key

/-- `childInfo.prefix = combinedPrefix`. -/
def setRouterPref : List (String × String) → String → String →
    List (String × String)
  | [], _, _ => []
  | (k, v) :: rest, key, newPref =>
    if key = k then (k, newPref) :: rest
    else (k, v) :: setRouterPref rest key newPref

/-- The routers map at the top of `scanPythonFile`: the target variable with
its route prefix, then every `APIRouter()` definition not already present,
with an empty prefix. -/
def initRouters (targetVar routePref : String) (defs : List String) :
    List (String × String) :=
  defs.foldl
    (fun rs v => if (lookupRouter rs v).isSome then rs else rs ++ [(v, "")])
    [(targetVar, routePref)]

/-- The statement loop of `scanPythonFile`.  `child` is the recursive call
into an imported file (supplied by `scanPythonFile` one fuel level down);
`i` is the current line number. -/
def processStmts (fs : PyFS) (wp : List String) (backendRoot : String)
    (child : String → String → String → ScanState → Nat → ScanState)
    (filePath : String) (imports : List PyImport) (depth : Nat) :
    Nat → List PyStmt → List (String × String) → ScanState → ScanState
  | _, [], _, st => st
  | i, stmt :: rest, routers, st =>
    match stmt with
    | .routeDecl routerVar verb path =>
      match lookupRouter routers routerVar with
      | some pref =>
        let fullPath := buildFullPath pref path
        let endpoint : BackendEndpoint :=
          { endpoint := normalizeEndpoint fullPath
            params := extractRouteParams fullPath.data []
            location := { file := filePath, line := i, col := 0 }
            httpMethod := String.mk (verb.data.map upperChar)
            rawEndpoint := fullPath }
        processStmts fs wp backendRoot child filePath imports depth (i + 1)
          rest routers { st with endpoints := st.endpoints ++ [endpoint] }
      | none =>
        processStmts fs wp backendRoot child filePath imports depth (i + 1)
          rest routers st
    | .includeRouter parentVar childVar pre =>
      match lookupRouter routers parentVar with
      | some parentPref =>
        let combinedPref := buildFullPath parentPref pre
        match findImportSource imports childVar backendRoot
            (dirname filePath) fs wp with
        | some imp =>
          let st2 := child imp.1 imp.2 combinedPref st (depth + 1)
          processStmts fs wp backendRoot child filePath imports depth (i + 1)
            rest routers st2
        | none =>
          let routers2 :=
            if (lookupRouter routers childVar).isSome then
              setRouterPref routers childVar combinedPref
            else routers
          processStmts fs wp backendRoot child filePath imports depth (i + 1)
            rest routers2 st
      | none =>
        processStmts fs wp backendRoot child filePath imports depth (i + 1)
          rest routers st

/-- `scanPythonFile`: refuse revisits and depths beyond
`MAX_IMPORT_DEPTH`, mark the file visited, read it, build the routers map
and walk the statements.  The extra fuel argument only feeds the recursion;
with the fuel the wrapper supplies, the depth guard always fires first. -/
def scanPythonFile (fs : PyFS) (wp : List String) (backendRoot : String) :
    Nat → String → String → String → ScanState → Nat → ScanState
  | 0, _, _, _, st, _ => st
  | fuel + 1, filePath, targetVar, routePref, st, depth =>
    let np := normPath filePath
    if st.visited.contains np ∨ MAX_IMPORT_DEPTH < depth then st
    else
      let st1 := { st with visited := st.visited ++ [np] }
      match readFile fs filePath with
      | none => st1
      | some f =>
        let routers := initRouters targetVar routePref f.routerDefs
        processStmts fs wp backendRoot
          (fun p v pre s d => scanPythonFile fs wp backendRoot fuel p v pre s d)
          filePath f.imports depth 0 f.stmts routers st1

/-- `scanFastApiEndpoints`: parse the entrypoint, check it exists, and scan
from it with an empty prefix and depth 0. -/
def scanFastApiEndpoints (fs : PyFS) (wp : List String)
    (backendRoot entrypointStr : String) : List BackendEndpoint :=
  match parseFastapiEntrypoint entrypointStr with
  | none => []
  | some ep =>
    let entrypointPath := backendRoot ++ "/" ++ ep.filePath
    if (readFile fs entrypointPath).isNone then []
    else
      (scanPythonFile fs wp backendRoot (MAX_IMPORT_DEPTH + 2) entrypointPath
        ep.appVar "" ⟨[], []⟩ 0).endpoints

end FastApiScanner

namespace FastApiScanner

/-- The normalized paths of the files the file system holds. -/
def domNP (fs : PyFS) : List String :=
  fs.map (fun kv => normPath kv.1)

theorem readFile_isSome_mem (fs : PyFS) (p : String)
    (h : (readFile fs p).isSome) : normPath p ∈ domNP fs := by
  induction fs with
  | nil => simp [readFile] at h
  | cons kv rest ih =>
    obtain ⟨q, g⟩ := kv
    rw [readFile] at h
    by_cases hpq : p = q
    · subst hpq
      simp [domNP]
    · rw [if_neg hpq] at h
      have := ih h
      simp only [domNP, List.map_cons, List.mem_cons]
      exact Or.inr (by simpa [domNP] using this)

theorem resolveModulePath_exists (m br cd : String) (fs : PyFS)
    (wp : List String) (p : String)
    (h : resolveModulePath m br cd fs wp = some p) :
    (readFile fs p).isSome := by
  unfold resolveModulePath at h
  dsimp only at h
  split at h
  · exact absurd h (by simp)
  · split at h
    · rename_i h2
      have hp := Option.some.inj h
      subst hp
      exact h2
    · split at h
      · rename_i h3
        have hp := Option.some.inj h
        subst hp
        exact h3
      · split at h
        · split at h
          · rename_i h5
            have hp := Option.some.inj h
            subst hp
            exact h5
          · exact absurd h (by simp)
        · exact absurd h (by simp)

theorem resolveItems_exists (varName m br cd : String) (fs : PyFS)
    (wp : List String) : ∀ (items : List (String × Option String)) (p v : String),
    resolveItems varName m br cd fs wp items = some (p, v) →
    (readFile fs p).isSome := by
  intro items
  induction items with
  | nil =>
    intro p v h
    simp [resolveItems] at h
  | cons item rest ih =>
    intro p v h
    obtain ⟨orig, aliasOpt⟩ := item
    rw [resolveItems.eq_def] at h
    dsimp only at h
    cases aliasOpt with
    | some al =>
      dsimp only at h
      by_cases hv : al = varName
      · rw [if_pos hv] at h
        rcases hr : resolveModulePath m br cd fs wp with _ | r
        · rw [hr] at h
          exact ih p v h
        · rw [hr] at h
          have hp : r = p := congrArg Prod.fst (Option.some.inj h)
          subst hp
          exact resolveModulePath_exists m br cd fs wp r hr
      · rw [if_neg hv] at h
        exact ih p v h
    | none =>
      dsimp only at h
      by_cases hv : orig = varName
      · rw [if_pos hv] at h
        rcases hr : resolveModulePath m br cd fs wp with _ | r
        · rw [hr] at h
          exact ih p v h
        · rw [hr] at h
          have hp : r = p := congrArg Prod.fst (Option.some.inj h)
          subst hp
          exact resolveModulePath_exists m br cd fs wp r hr
      · rw [if_neg hv] at h
        exact ih p v h

theorem findImportSource_exists (varName br cd : String) (fs : PyFS)
    (wp : List String) : ∀ (imports : List PyImport) (p v : String),
    findImportSource imports varName br cd fs wp = some (p, v) →
    (readFile fs p).isSome := by
  intro imports
  induction imports with
  | nil =>
    intro p v h
    simp [findImportSource] at h
  | cons imp rest ih =>
    intro p v h
    cases imp with
    | fromImport m items =>
      rw [findImportSource] at h
      rcases hr : resolveItems varName m br cd fs wp items with _ | r
      · rw [hr] at h
        exact ih p v h
      · rw [hr] at h
        obtain ⟨p2, v2⟩ := r
        have hp : p2 = p := congrArg Prod.fst (Option.some.inj h)
        subst hp
        exact resolveItems_exists varName m br cd fs wp items p2 v2 hr
    | importAs m al =>
      rw [findImportSource] at h
      by_cases hv : al = varName
      · rw [if_pos hv] at h
        rcases hr : resolveModulePath m br cd fs wp with _ | r
        · rw [hr] at h
          exact ih p v h
        · rw [hr] at h
          have hp : r = p := congrArg Prod.fst (Option.some.inj h)
          subst hp
          exact resolveModulePath_exists m br cd fs wp r hr
      · rw [if_neg hv] at h
        exact ih p v h

/-- The traversal-extension contract of a recursive scan call: it only
appends fresh, duplicate-free normalized paths, each being the file it was
asked to scan or a file of the workspace. -/
def ChildOK (fs : PyFS)
    (child : String → String → String → ScanState → Nat → ScanState) : Prop :=
  ∀ p v pre st d, ∃ ext, (child p v pre st d).visited = st.visited ++ ext ∧
    ext.Nodup ∧ (∀ q ∈ ext, q ∉ st.visited) ∧
    (∀ q ∈ ext, q = normPath p ∨ q ∈ domNP fs)

theorem processStmts_visited (fs : PyFS) (wp : List String) (br : String)
    (child : String → String → String → ScanState → Nat → ScanState)
    (hchild : ChildOK fs child) (filePath : String)
    (imports : List PyImport) (depth : Nat) :
    ∀ (stmts : List PyStmt) (i : Nat) (routers : List (String × String))
      (st : ScanState),
    ∃ ext, (processStmts fs wp br child filePath imports depth i stmts
        routers st).visited = st.visited ++ ext ∧
      ext.Nodup ∧ (∀ q ∈ ext, q ∉ st.visited) ∧ (∀ q ∈ ext, q ∈ domNP fs) := by
  intro stmts
  induction stmts with
  | nil =>
    intro i routers st
    exact ⟨[], by simp [processStmts], by simp, by simp, by simp⟩
  | cons stmt rest ih =>
    intro i routers st
    cases stmt with
    | routeDecl routerVar verb path =>
      rw [processStmts]
      cases lookupRouter routers routerVar with
      | some pref => exact ih (i + 1) routers _
      | none => exact ih (i + 1) routers st
    | includeRouter parentVar childVar pre =>
      rw [processStmts]
      cases lookupRouter routers parentVar with
      | some parentPref =>
        cases hf : findImportSource imports childVar br (dirname filePath)
            fs wp with
        | some imp =>
          obtain ⟨ext1, hv1, hn1, hf1, hm1⟩ :=
            hchild imp.1 imp.2 (buildFullPath parentPref pre) st (depth + 1)
          obtain ⟨ext2, hv2, hn2, hf2, hm2⟩ := ih (i + 1) routers
            (child imp.1 imp.2 (buildFullPath parentPref pre) st (depth + 1))
          have hm1d : ∀ q ∈ ext1, q ∈ domNP fs := by
            intro q hq
            rcases hm1 q hq with hq1 | hq1
            · subst hq1
              exact readFile_isSome_mem fs imp.1
                (findImportSource_exists childVar br (dirname filePath) fs wp
                  imports imp.1 imp.2 (by rw [hf]))
            · exact hq1
          refine ⟨ext1 ++ ext2, ?_, ?_, ?_, ?_⟩
          · rw [hv2, hv1, List.append_assoc]
          · rw [List.nodup_append]
            refine ⟨hn1, hn2, ?_⟩
            intro q hq1 hq2
            have : q ∉ st.visited ++ ext1 := by
              rw [← hv1]
              exact hf2 q hq2
            exact this (List.mem_append_right _ hq1)
          · intro q hq
            rcases List.mem_append.mp hq with hq1 | hq1
            · exact hf1 q hq1
            · intro hmem
              exact hf2 q hq1 (by rw [hv1]; exact List.mem_append_left _ hmem)
          · intro q hq
            rcases List.mem_append.mp hq with hq1 | hq1
            · exact hm1d q hq1
            · exact hm2 q hq1
        | none => exact ih (i + 1) _ st
      | none => exact ih (i + 1) routers st

theorem scanPythonFile_visited (fs : PyFS) (wp : List String) (br : String) :
    ∀ (fuel : Nat) (p v pre : String) (st : ScanState) (d : Nat),
    ∃ ext, (scanPythonFile fs wp br fuel p v pre st d).visited =
        st.visited ++ ext ∧
      ext.Nodup ∧ (∀ q ∈ ext, q ∉ st.visited) ∧
      (∀ q ∈ ext, q = normPath p ∨ q ∈ domNP fs) := by
  intro fuel
  induction fuel with
  | zero =>
    intro p v pre st d
    exact ⟨[], by simp [scanPythonFile], by simp, by simp, by simp⟩
  | succ fuel ih =>
    intro p v pre st d
    rw [scanPythonFile]
    by_cases hg : st.visited.contains (normPath p) ∨ MAX_IMPORT_DEPTH < d
    · rw [if_pos hg]
      exact ⟨[], by simp, by simp, by simp, by simp⟩
    · rw [if_neg hg]
      have hnp : normPath p ∉ st.visited := by
        intro hmem
        exact hg (Or.inl (List.elem_eq_true_of_mem hmem))
      cases hread : readFile fs p with
      | none =>
        refine ⟨[normPath p], by simp, by simp, ?_, by simp⟩
        intro q hq
        rw [List.mem_singleton.mp hq]
        exact hnp
      | some f =>
        have hchild : ChildOK fs
            (fun p2 v2 pre2 s2 d2 =>
              scanPythonFile fs wp br fuel p2 v2 pre2 s2 d2) := by
          intro p2 v2 pre2 s2 d2
          exact ih p2 v2 pre2 s2 d2
        obtain ⟨ext2, hv2, hn2, hf2, hm2⟩ :=
          processStmts_visited fs wp br _ hchild p f.imports d f.stmts 0
            (initRouters v pre f.routerDefs)
            { st with visited := st.visited ++ [normPath p] }
        refine ⟨normPath p :: ext2, ?_, ?_, ?_, ?_⟩
        · rw [hv2]
          simp
        · rw [List.nodup_cons]
          refine ⟨?_, hn2⟩
          intro hmem
          exact hf2 (normPath p) hmem (by simp)
        · intro q hq
          rcases List.mem_cons.mp hq with hq1 | hq1
          · rw [hq1]
            exact hnp
          · intro hmem
            exact hf2 q hq1 (by simp [hmem])
        · intro q hq
          rcases List.mem_cons.mp hq with hq1 | hq1
          · exact Or.inl hq1
          · exact Or.inr (hm2 q hq1)

/-- C8: the FastAPI router-graph scan is bounded: every call extends the
visited set by a duplicate-free list of fresh normalized paths drawn from
the scanned file and the workspace file system (so each file is processed
at most once and total work is bounded by the file count, independently of
depth), and any call beyond `MAX_IMPORT_DEPTH` does nothing at all (so the
depth cap bounds the recursion independently of the visited set). -/
theorem fastapi_scan_bounded :
    (∀ (fs : PyFS) (wp : List String) (br : String) (fuel : Nat)
      (p v pre : String) (st : ScanState) (d : Nat),
      ∃ ext, (scanPythonFile fs wp br fuel p v pre st d).visited =
          st.visited ++ ext ∧
        ext.Nodup ∧ (∀ q ∈ ext, q ∉ st.visited) ∧
        (∀ q ∈ ext, q = normPath p ∨ q ∈ domNP fs)) ∧
    (∀ (fs : PyFS) (wp : List String) (br : String) (fuel : Nat)
      (p v pre : String) (st : ScanState) (d : Nat),
      MAX_IMPORT_DEPTH < d →
      scanPythonFile fs wp br fuel p v pre st d = st) := by
  constructor
  · intro fs wp br fuel p v pre st d
    exact scanPythonFile_visited fs wp br fuel p v pre st d
  · intro fs wp br fuel p v pre st d hd
    cases fuel with
    | zero => rfl
    | succ fuel =>
      rw [scanPythonFile, if_pos (Or.inr hd)]

theorem fastapi_scan_bounded_witness :
    scanPythonFile [] [] "" 5 "app/main.py" "app" ""
      ⟨[], []⟩ 11 = ⟨[], []⟩ :=
  fastapi_scan_bounded.2 [] [] "" 5 "app/main.py" "app" "" ⟨[], []⟩ 11
    (by decide)

end FastApiScanner

end ApiNav
